import Mathlib

/-!
# MandelBrotConcurrency: bitmap encoder and Mandelbrot renderer

A shallow embedding of `src/bmp.cpp` and `src/mandelbrot.cpp`.

* C++ `int` values are `Int`; arithmetic that can leave the 32-bit range is
  passed through `wrap32`, and `/`, `%` are the truncating `Int.tdiv`, `Int.tmod`.
* Bytes handed to the output stream are `Nat` values below 256.
* `float`/`double` values are dyadic rationals `man * 2 ^ exp`; every operation
  is the exact operation followed by round-to-nearest-even (IEEE 754, binary32
  with 24 significant bits, binary64 with 53). Exponent range limits are not
  modelled: no operation on `int` inputs reaches them.
* The stream written by `saveImage` is the list of bytes in write order.
-/

namespace MandelBrot

/-! ## Machine integers and bytes -/

/-- Reduction of a mathematical integer to the signed 32-bit range of a C++ `int`. -/
def wrap32 (x : Int) : Int := (x + 2147483648) % 4294967296 - 2147483648

/-- The conversion `static_cast<unsigned char>(x)`: the value modulo 256. -/
def toUChar (x : Int) : Nat := (x % 256).toNat

/-- Little-endian value of a list of bytes. -/
def leDecode : List Nat → Nat
  | [] => 0
  | b :: bs => b + 256 * leDecode bs

/-! ## Floating point (binary32 / binary64, round to nearest even) -/

/-- A finite floating-point value `man * 2 ^ exp`. -/
structure Flt where
  man : Int
  exp : Int
deriving DecidableEq, Repr

/-- The rational number a floating-point value denotes. -/
def Flt.toRat (f : Flt) : ℚ := (f.man : ℚ) * (2 : ℚ) ^ f.exp

/-- Numerator of `n / (d * 2 ^ e)` written over a natural denominator. -/
def scaleNum (n : Nat) (e : Int) : Nat := if e < 0 then n * 2 ^ (-e).toNat else n

/-- Denominator of `n / (d * 2 ^ e)` written over a natural denominator. -/
def scaleDen (d : Nat) (e : Int) : Nat := if e < 0 then d else d * 2 ^ e.toNat

/-- The integer nearest to `N / D`, ties going to the even neighbour. -/
def roundHalfEven (N D : Nat) : Nat :=
  let q := N / D
  let r := N % D
  if 2 * r < D then q else if D < 2 * r then q + 1 else if q % 2 = 0 then q else q + 1

/-- Number of binary digits of `n` minus one (`0` for `n ≤ 1`), by halving `fuel` times. -/
def ilog2 : Nat → Nat → Nat
  | 0, _ => 0
  | fuel + 1, n => if 2 ≤ n then ilog2 fuel (n / 2) + 1 else 0

/-- Round the positive rational `n / d` to `p` significant bits: the result
`(m, e)` denotes `m * 2 ^ e` with `2 ^ (p - 1) ≤ m ≤ 2 ^ p`. -/
def roundNat (p n d : Nat) : Nat × Int :=
  if n = 0 then (0, 0) else
  let e0 : Int := (ilog2 n n : Int) - (ilog2 d d : Int) - (p : Int)
  let e : Int := if scaleNum n e0 < 2 ^ p * scaleDen d e0 then e0 else e0 + 1
  (roundHalfEven (scaleNum n e) (scaleDen d e), e)

/-- Round the rational `num / den * 2 ^ s` to `p` significant bits. -/
def roundFlt (p : Nat) (num : Int) (den : Nat) (s : Int) : Flt :=
  let r := roundNat p num.natAbs den
  ⟨if num < 0 then -(r.1 : Int) else (r.1 : Int), r.2 + s⟩

/-- Conversion of an `int` to `float`. -/
def intToFloat (i : Int) : Flt := roundFlt 24 i 1 0

/-- Product of two `float` values, rounded to `float`. -/
def fmul32 (a b : Flt) : Flt := roundFlt 24 (a.man * b.man) 1 (a.exp + b.exp)

/-- Quotient of two `float` values, rounded to `float` (`b` nonzero). -/
def fdiv32 (a b : Flt) : Flt :=
  roundFlt 24 (a.man * b.man.sign) b.man.natAbs (a.exp - b.exp)

/-- Integer square root by binary digits: `isqrt fuel T` is `⌊√T⌋` when `T < 4 ^ fuel`. -/
def isqrt : Nat → Nat → Nat
  | 0, _ => 0
  | fuel + 1, T =>
    let r := 2 * isqrt fuel (T / 4)
    if (r + 1) * (r + 1) ≤ T then r + 1 else r

/-- Square root of a `float`, correctly rounded to `float`: `std::sqrt(float)`.
A negative argument gives NaN, modelled as `none`. The argument is rescaled to
an integer `T` with `2 ^ 46 ≤ T < 2 ^ 48`, so that `√T` has 24 integer bits, and
the root is rounded to the nearer of `⌊√T⌋` and `⌊√T⌋ + 1` (a tie cannot occur). -/
def fsqrt32 (a : Flt) : Option Flt :=
  if a.man < 0 then none
  else if a.man = 0 then some ⟨0, 0⟩
  else
    let m := a.man.toNat
    let t : Int := (ilog2 m m : Int) + a.exp - 46
    let e : Int := t / 2
    let sh : Int := a.exp - 2 * e
    let T : Nat := scaleNum m (-sh) / scaleDen 1 (-sh)
    let s := isqrt 24 T
    some ⟨if s * s + s < T then (s : Int) + 1 else (s : Int), e⟩

/-- Conversion `static_cast<int>(float)`: truncation toward zero. The C++
conversion is defined only when the truncated value is an `int`, which is the
condition `fitsInt`; outside it this function still gives the truncated value,
which no `int` holds. -/
def floatToInt (a : Flt) : Int :=
  if a.exp < 0 then Int.tdiv a.man (2 ^ (-a.exp).toNat) else a.man * 2 ^ a.exp.toNat

/-- The condition under which `static_cast<int>(a)` is defined: the value of `a`
truncated toward zero lies in `[-2^31, 2^31 - 1]`. -/
def fitsInt (a : Flt) : Prop := -(2 : ℚ) ^ 31 - 1 < a.toRat ∧ a.toRat < (2 : ℚ) ^ 31

/-! ## `pixel` and `bitMap` -/

/-- Modelled from the spec: `pixel.h` is not part of the sources; a pixel is
three unsigned 8-bit channel values (red, green, blue). -/
structure pixel where
  red : Fin 256
  green : Fin 256
  blue : Fin 256
deriving DecidableEq, Repr

instance : Inhabited pixel := ⟨⟨0, 0, 0⟩⟩

/-- Modelled from the spec: the constructor `pixel(r, g, b)` of the missing
`pixel.h`, storing each argument as an unsigned 8-bit channel. -/
def pixel.ofInts (r g b : Int) : pixel :=
  ⟨Fin.ofNat (toUChar r), Fin.ofNat (toUChar g), Fin.ofNat (toUChar b)⟩

/-- Modelled from the spec: `headerSize` of the missing `bmp.h`; the file
header is 14 bytes (also stated by the comment in `makeHeader`). -/
def headerSize : Int := 14

/-- Modelled from the spec: `sizeDIB` of the missing `bmp.h`; the metadata
header is 40 bytes (also stated by the comment in `makeHeader`). -/
def sizeDIB : Int := 40

/-- The fields of the class `bitMap`. -/
structure bitMap where
  width : Int
  height : Int
  header : List Nat
  DIB : List Nat
  imageData : List pixel
deriving DecidableEq, Repr

/-- Loop of `getByte`: `n` remaining iterations, current `newValue` and `rem`. -/
def getByteLoop : Nat → Int → Nat → Nat
  | 0, _, rem => rem
  | n + 1, newValue, _ => getByteLoop n (Int.tdiv newValue 256) (toUChar (Int.tmod newValue 256))

/-- Method `bitMap::getByte(value, byte)`: the loop body runs for `i = 0 .. byte`. -/
def getByte (value : Int) (byte : Nat) : Nat := getByteLoop (byte + 1) value 0

/-- Method `bitMap::dpiToPPM`: `inchesPerMeter` is the `double` quotient `39.3701/1`
converted to `float`, `convert` the `float` product, cast to `int`. The value is
the one the C++ function returns when the cast is defined, that is when
`fitsInt (dpiConvert dpi)`; for larger `dpi` the C++ cast is undefined. -/
def dpiToPPM (dpi : Int) : Int :=
  let lit : Flt := roundFlt 53 393701 10000 0
  let inchesPerMeter : Flt := roundFlt 24 lit.man 1 lit.exp
  let convert : Flt := fmul32 (intToFloat dpi) inchesPerMeter
  floatToInt convert

/-- The `float` value `convert` that `dpiToPPM` casts to `int`. -/
def dpiConvert (dpi : Int) : Flt :=
  fmul32 (intToFloat dpi)
    (roundFlt 24 (roundFlt 53 393701 10000 0).man 1 (roundFlt 53 393701 10000 0).exp)

/-- Method `bitMap::numPixels`. -/
def numPixels (b : bitMap) : Int := wrap32 (b.width * b.height)

/-- The row padding `(4 - (width * 3) % 4) % 4` of `saveImage` and `makeHeader`. -/
def paddingAmount (width : Int) : Int := Int.tmod (4 - Int.tmod (wrap32 (width * 3)) 4) 4

/-- Method `bitMap::makeHeader`: fills the `header` field from `width` and `height`. -/
def makeHeader (b : bitMap) : bitMap :=
  let offset : Int := headerSize + sizeDIB
  let rowSize : Int := wrap32 (wrap32 (b.width * 3) + paddingAmount b.width)
  let totalPixelArraySize : Int := wrap32 (rowSize * b.height)
  let totalBits : Int := wrap32 (totalPixelArraySize + offset)
  { b with header :=
      ['B'.toNat, 'M'.toNat,
       getByte totalBits 0, getByte totalBits 1, getByte totalBits 2, getByte totalBits 3,
       0, 0, 0, 0,
       getByte offset 0, getByte offset 2, getByte offset 2, getByte offset 3] }

/-- Method `bitMap::makeDIB`: fills the `DIB` field. The constant `dpi` of the missing
`bmp.h` is a parameter. -/
def makeDIB (dpi : Int) (b : bitMap) : bitMap :=
  let resolution : Int := dpiToPPM dpi
  { b with DIB :=
      [getByte 40 0, getByte 40 1, getByte 40 2, getByte 40 3,
       getByte b.width 0, getByte b.width 1, getByte b.width 2, getByte b.width 3,
       getByte b.height 0, getByte b.height 1, getByte b.height 2, getByte b.height 3,
       1, 0,
       getByte 24 0, getByte 24 1,
       0, 0, 0, 0,
       0, 0, 0, 0,
       getByte resolution 0, getByte resolution 1, getByte resolution 2, getByte resolution 3,
       getByte resolution 0, getByte resolution 1, getByte resolution 2, getByte resolution 3,
       0, 0, 0, 0,
       0, 0, 0, 0] }

/-- The constructor `bitMap::bitMap(w, h, filename)`. The storage returned by
`new pixel[numPixels()]` holds `numPixels()` pixels whose initial values `mem`
are not fixed by the sources. -/
def bitMap.new (dpi w h : Int) (mem : Nat → pixel) : bitMap :=
  let b0 : bitMap := { width := w, height := h, header := [], DIB := [], imageData := [] }
  let b1 := makeHeader b0
  let b2 := makeDIB dpi b1
  { b2 with imageData := (List.range (numPixels b2).toNat).map mem }

/-- Method `bitMap::setColor`. A store to `imageData[pos]` outside the allocated
array is undefined behaviour and reported as `Except.error pos`. -/
def setColor (b : bitMap) (pos : Int) (color : pixel) : Except Int bitMap :=
  if pos < 0 ∨ pos > numPixels b then
    Except.ok b
  else if pos.toNat < b.imageData.length then
    Except.ok { b with imageData := b.imageData.set pos.toNat color }
  else
    Except.error pos

/-- The three bytes `myPixel[0..2]` written for one pixel: blue, green, red. -/
def pixelBytes (p : pixel) : List Nat := [p.blue.val, p.green.val, p.red.val]

/-- Inner loop of `saveImage` for row `i`: columns `j = 0 .. n - 1`. A read of
`imageData[idx]` outside the array (undefined behaviour) gives the default pixel. -/
def saveCols (b : bitMap) (i : Int) : Nat → List Nat
  | 0 => []
  | n + 1 =>
    let idx : Int := wrap32 (wrap32 (i * b.width) + (n : Int))
    saveCols b i n ++ pixelBytes (b.imageData.getD idx.toNat default)

/-- One iteration of the outer loop of `saveImage`: the pixels of row `i`,
then `paddingAmount` zero bytes. -/
def saveRow (b : bitMap) (i : Int) : List Nat :=
  saveCols b i b.width.toNat ++ List.replicate (paddingAmount b.width).toNat 0

/-- Outer loop of `saveImage`: rows `i = n - 1` down to `0`. -/
def saveRows (b : bitMap) : Nat → List Nat
  | 0 => []
  | n + 1 => saveRow b (n : Int) ++ saveRows b n

/-- Method `bitMap::saveImage`: the bytes written to the stream, in order. -/
def saveImage (b : bitMap) : List Nat :=
  b.header ++ b.DIB ++ saveRows b b.height.toNat

/-! ## `mandelbrot.cpp` -/

/-- The constant `WIDTH`. -/
def WIDTH : Int := 450

/-- The constant `MAX_ITERATIONS`. -/
def MAX_ITERATIONS : Int := 100

/-- Function `getPixelColor`: `iterations / static_cast<float>(MAX_ITERATIONS)`, `std::sqrt`
and the product with `255` are `float` operations; the result is cast to `int`.
For a negative count the square root is NaN, whose conversion to `int` is
undefined: `none`. -/
def getPixelColor (iterations : Int) : Option pixel :=
  if iterations = MAX_ITERATIONS then
    some (pixel.ofInts 41 24 82)
  else
    match fsqrt32 (fdiv32 (intToFloat iterations) (intToFloat MAX_ITERATIONS)) with
    | none => none
    | some root =>
      let color : Int := floatToInt (fmul32 (intToFloat 255) root)
      some (pixel.ofInts color color color)

section Escape

variable {K : Type} [LinearOrderedField K]

/-- Product of two `std::complex` values, as pairs (real part, imaginary part). -/
def cmul (z w : K × K) : K × K := (z.1 * w.1 - z.2 * w.2, z.1 * w.2 + z.2 * w.1)

/-- Sum of two `std::complex` values. -/
def cadd (z w : K × K) : K × K := (z.1 + w.1, z.2 + w.2)

/-- The test `std::abs(z) > 4` in exact arithmetic: the modulus `√(re² + im²)`
exceeds `4` exactly when `re² + im²` exceeds `16`. -/
def absGt4 (z : K × K) : Bool := decide (16 < z.1 * z.1 + z.2 * z.2)

/-- Loop of `mandelbrot`: `fuel` bounds the remaining iterations, `i` is the
loop counter and `current` the value of `current` before the iteration. -/
def mandelbrotLoop (c : K × K) (max_iterations : Int) : Nat → Int → K × K → Int
  | 0, _, _ => max_iterations
  | fuel + 1, i, current =>
    if i < max_iterations then
      if absGt4 (cadd (cmul current current) c) then i
      else mandelbrotLoop c max_iterations fuel (i + 1) (cadd (cmul current current) c)
    else max_iterations

/-- Function `mandelbrot(x, y, max_iterations)` in exact arithmetic over an ordered
field `K`. The loop runs for `i = 1 .. max_iterations - 1`, so
`max_iterations - 1` units of fuel let it run to its end. -/
def mandelbrot (x y : K) (max_iterations : Int) : Int :=
  mandelbrotLoop (x, y) max_iterations (max_iterations - 1).toNat 1 (0, 0)

end Escape

/-- The `(startY, endY)` arguments `generateMandelbrot` hands to the workers it
launches, in launch order, for `thread_count = hardware_concurrency()` and
`height = bmp.getHeight()`. `height / thread_count` with `thread_count = 0` is an
integer division by zero: `none`. For `thread_count > 0` the products
`i * rows_per_thread` stay within `[0, height]`, so no wrap-around is applied. -/
def generateMandelbrot (thread_count height : Int) : Option (List (Int × Int)) :=
  if thread_count = 0 then none
  else
    let rows_per_thread : Int := Int.tdiv height thread_count
    some ((List.range thread_count.toNat).map fun (i : Nat) =>
      let startY : Int := (i : Int) * rows_per_thread
      let endY : Int := if (i : Int) = thread_count - 1 then height else startY + rows_per_thread
      (startY, endY))

/-- Inner loop of `generateMandelbrotSection` for row `y`: the stores
`image[y * WIDTH + x] = ...` for `x = 0 .. n - 1`, as (index, colour) pairs.
The stored colour `getPixelColor(mandelbrot(cx, cy, MAX_ITERATIONS))` depends on
`long double` coordinates and is the parameter `color x y`. -/
def sectionCols (color : Int → Int → pixel) (y : Int) : Nat → List (Int × pixel)
  | 0 => []
  | n + 1 =>
    sectionCols color y n ++ [(wrap32 (wrap32 (y * WIDTH) + (n : Int)), color (n : Int) y)]

/-- Function `generateMandelbrotSection(startY, endY, ..., image)`: the stores it
makes to `image`, in program order, for `y = startY .. endY - 1` and
`x = 0 .. WIDTH - 1`. -/
def generateMandelbrotSection (color : Int → Int → pixel) (startY endY : Int) :
    List (Int × pixel) :=
  (List.range (endY - startY).toNat).flatMap fun (k : Nat) =>
    sectionCols color (startY + (k : Int)) WIDTH.toNat

/-- The stores made by the workers that `generateMandelbrot` launches, listed
worker by worker in launch order; `none` when `thread_count = 0`. The order in
which concurrent workers interleave is not modelled. -/
def workerStores (color : Int → Int → pixel) (thread_count height : Int) :
    Option (List (List (Int × pixel))) :=
  (generateMandelbrot thread_count height).map fun rs =>
    rs.map fun r => generateMandelbrotSection color r.1 r.2

/-! ## Specification-side definitions -/

/-- The pixel section in the words of the specification: for each row `r` from
`H - 1` down to `0`, for each column `c` from `0` to `W - 1`, the blue, green and
red bytes of the pixel `px (r * W + c)`, then `(4 - (3W mod 4)) mod 4` zero bytes. -/
def specPixelSection (W H : Nat) (px : Nat → pixel) : List Nat :=
  (List.range H).reverse.flatMap fun r =>
    ((List.range W).flatMap fun c =>
      [(px (r * W + c)).blue.val, (px (r * W + c)).green.val, (px (r * W + c)).red.val])
    ++ List.replicate ((4 - (3 * W) % 4) % 4) 0

/-- Check that `getPixelColor i` is a grey pixel whose level `c` satisfies
`c ≤ 255` and `100 * c² ≤ 65025 * i < 100 * (c + 1)²`, that is
`c ≤ 255 * √(i / 100) < c + 1`. -/
def grayOk (i : Nat) : Bool :=
  match getPixelColor (i : Int) with
  | some p =>
    decide (p.green.val = p.red.val ∧ p.blue.val = p.red.val ∧ p.red.val ≤ 255
      ∧ 100 * p.red.val ^ 2 ≤ 65025 * i ∧ 65025 * i < 100 * (p.red.val + 1) ^ 2)
  | none => false

/-- Check that `dpiToPPM d` is `⌊d * 39.3701⌋`. -/
def ppmOk (d : Nat) : Bool := decide (dpiToPPM (d : Int) = ((393701 * d / 10000 : Nat) : Int))

/-! ## Helper lemmas: machine integers -/

theorem wrap32_eq_self {x : Int} (h1 : -2147483648 ≤ x) (h2 : x < 2147483648) : wrap32 x = x := by
  unfold wrap32; omega

theorem tmod_four (a : Int) :
    Int.tmod a 4 = if 0 ≤ a then a % 4 else -((-a) % 4) := by
  split
  · next h => exact Int.tmod_eq_emod h (by decide)
  · next h =>
    have h2 : Int.tmod (-(-a)) 4 = -(Int.tmod (-a) 4) := by
      rw [Int.tmod_def, Int.tmod_def, Int.neg_tdiv]; ring
    rw [Int.neg_neg] at h2
    rw [h2, Int.tmod_eq_emod (by omega) (by decide)]

theorem paddingAmount_nat (W : Nat) : paddingAmount (W : Int) = (((4 - (3 * W) % 4) % 4 : Nat) : Int) := by
  unfold paddingAmount wrap32
  rw [tmod_four, tmod_four]
  split <;> split <;> omega

theorem tdiv_256_nat (n : Nat) : Int.tdiv (n : Int) 256 = ((n / 256 : Nat) : Int) := by
  rw [Int.tdiv_eq_ediv (by omega) (by decide)]; omega

theorem toUChar_tmod_nat (n : Nat) : toUChar (Int.tmod (n : Int) 256) = n % 256 := by
  unfold toUChar
  rw [Int.tmod_eq_emod (by omega) (by decide)]; omega

theorem getByteLoop_nat (k n r : Nat) :
    getByteLoop (k + 1) (n : Int) r = (n / 256 ^ k) % 256 := by
  induction k generalizing n r with
  | zero => simp [getByteLoop, toUChar_tmod_nat]
  | succ k ih =>
    rw [getByteLoop, tdiv_256_nat, ih, Nat.div_div_eq_div_mul, pow_succ, Nat.mul_comm]

theorem getByte_nat (n k : Nat) : getByte (n : Int) k = (n / 256 ^ k) % 256 :=
  getByteLoop_nat k n 0

theorem leDecode_getByte (n : Nat) (h : n < 4294967296) :
    leDecode [getByte (n : Int) 0, getByte (n : Int) 1, getByte (n : Int) 2, getByte (n : Int) 3]
      = n := by
  simp only [getByte_nat, leDecode]
  norm_num
  omega

theorem ceil_three_quarters (W : Nat) : ⌈(3 * (W : ℚ)) / 4⌉₊ = (3 * W + 3) / 4 := by
  apply le_antisymm
  · rw [Nat.ceil_le, div_le_iff₀ (by norm_num)]
    have h : 3 * W ≤ (3 * W + 3) / 4 * 4 := by omega
    exact_mod_cast h
  · have h := Nat.le_ceil ((3 * (W : ℚ)) / 4)
    rw [div_le_iff₀ (by norm_num)] at h
    have h2 : 3 * W ≤ ⌈(3 * (W : ℚ)) / 4⌉₊ * 4 := by exact_mod_cast h
    omega

/-! ## Helper lemmas: the floating-point model -/

theorem isqrt_spec (fuel T : Nat) (h : T < 4 ^ fuel) :
    isqrt fuel T * isqrt fuel T ≤ T ∧ T < (isqrt fuel T + 1) * (isqrt fuel T + 1) := by
  induction fuel generalizing T with
  | zero =>
    have hT : T = 0 := by simpa using h
    subst hT
    simp [isqrt]
  | succ fuel ih =>
    have h4 : T / 4 < 4 ^ fuel := by
      rw [Nat.div_lt_iff_lt_mul (by norm_num)]
      rw [pow_succ] at h
      exact h
    obtain ⟨h1, h2⟩ := ih (T / 4) h4
    unfold isqrt
    simp only
    generalize isqrt fuel (T / 4) = s at h1 h2
    have e1 : 2 * s * (2 * s) = 4 * (s * s) := by ring
    have e2 : (2 * s + 1 + 1) * (2 * s + 1 + 1) = 4 * ((s + 1) * (s + 1)) := by ring
    split
    · next hle => exact ⟨hle, by omega⟩
    · next hle => exact ⟨by omega, by omega⟩

theorem roundHalfEven_nearest (N D : Nat) (hD : 0 < D) :
    2 * (roundHalfEven N D * D) ≤ 2 * N + D ∧ 2 * N ≤ 2 * (roundHalfEven N D * D) + D := by
  have hN : D * (N / D) + N % D = N := Nat.div_add_mod N D
  have hr : N % D < D := Nat.mod_lt N hD
  have e1 : (N / D + 1) * D = D * (N / D) + D := by ring
  have e2 : N / D * D = D * (N / D) := by ring
  unfold roundHalfEven
  simp only
  split
  · rw [e2]; omega
  · split
    · rw [e1]; omega
    · split
      · rw [e2]; omega
      · rw [e1]; omega

/-! ## Helper lemmas: the byte stream of `saveImage` -/

theorem length_saveCols (b : bitMap) (i : Int) (n : Nat) : (saveCols b i n).length = 3 * n := by
  induction n with
  | zero => rfl
  | succ n ih => simp [saveCols, pixelBytes, ih]; omega

theorem length_saveRow (b : bitMap) (i : Int) :
    (saveRow b i).length = 3 * b.width.toNat + (paddingAmount b.width).toNat := by
  simp [saveRow, length_saveCols]

theorem length_saveRows (b : bitMap) (n : Nat) :
    (saveRows b n).length = n * (3 * b.width.toNat + (paddingAmount b.width).toNat) := by
  induction n with
  | zero => simp [saveRows]
  | succ n ih => simp [saveRows, length_saveRow, ih]; ring

theorem new_width (dpi w h : Int) (mem : Nat → pixel) : (bitMap.new dpi w h mem).width = w := rfl

theorem new_height (dpi w h : Int) (mem : Nat → pixel) : (bitMap.new dpi w h mem).height = h := rfl

theorem length_new_header (dpi w h : Int) (mem : Nat → pixel) :
    (bitMap.new dpi w h mem).header.length = 14 := rfl

theorem length_new_DIB (dpi w h : Int) (mem : Nat → pixel) :
    (bitMap.new dpi w h mem).DIB.length = 40 := rfl

theorem new_imageData (dpi w h : Int) (mem : Nat → pixel) :
    (bitMap.new dpi w h mem).imageData = (List.range (wrap32 (w * h)).toNat).map mem := rfl

theorem rowSize_nat (W : Nat) :
    3 * W + (4 - (3 * W) % 4) % 4 = 4 * ((3 * W + 3) / 4) := by omega

theorem length_saveImage_new (dpi : Int) (W H : Nat) (mem : Nat → pixel) :
    (saveImage (bitMap.new dpi W H mem)).length = 54 + H * (4 * ((3 * W + 3) / 4)) := by
  simp only [saveImage, List.length_append, length_new_header, length_new_DIB, length_saveRows,
    new_width, new_height, paddingAmount_nat, Int.toNat_ofNat, rowSize_nat]

theorem wrap32_nat (n : Nat) (h : n < 2147483648) : wrap32 (n : Int) = (n : Int) :=
  wrap32_eq_self (by omega) (by omega)

theorem totalBits_nat (W H : Nat) (hH : 0 < H)
    (hfit : 54 + H * (4 * ((3 * W + 3) / 4)) < 2147483648) :
    wrap32 (wrap32 (wrap32 (wrap32 ((W : Int) * 3) + paddingAmount (W : Int)) * (H : Int))
        + (headerSize + sizeDIB))
      = ((54 + H * (4 * ((3 * W + 3) / 4)) : Nat) : Int) := by
  have hR := rowSize_nat W
  have hle : 4 * ((3 * W + 3) / 4) ≤ H * (4 * ((3 * W + 3) / 4)) := Nat.le_mul_of_pos_left _ hH
  generalize 4 * ((3 * W + 3) / 4) = R at hR hle hfit ⊢
  have b1 : W * 3 < 2147483648 := by omega
  have b2 : R < 2147483648 := by omega
  have b3 : H * R < 2147483648 := by omega
  have e1 : (W : Int) * 3 = ((W * 3 : Nat) : Int) := by push_cast; ring
  have e2 : ((W * 3 : Nat) : Int) + (((4 - (3 * W) % 4) % 4 : Nat) : Int) = (R : Int) := by omega
  have e3 : (R : Int) * (H : Int) = ((H * R : Nat) : Int) := by push_cast; ring
  have e4 : ((H * R : Nat) : Int) + (headerSize + sizeDIB) = ((54 + H * R : Nat) : Int) := by
    show ((H * R : Nat) : Int) + (14 + 40) = _
    push_cast; ring
  rw [e1, wrap32_nat _ b1, paddingAmount_nat, e2, wrap32_nat _ b2, e3, wrap32_nat _ b3, e4,
    wrap32_nat _ hfit]

theorem new_header_size_field (dpi : Int) (W H : Nat) (mem : Nat → pixel) (hH : 0 < H)
    (hfit : 54 + H * (4 * ((3 * W + 3) / 4)) < 2147483648) :
    leDecode (((bitMap.new dpi W H mem).header.drop 2).take 4)
      = 54 + H * (4 * ((3 * W + 3) / 4)) := by
  have h := totalBits_nat W H hH hfit
  show leDecode [getByte _ 0, getByte _ 1, getByte _ 2, getByte _ 3] = _
  simp only [] at h ⊢
  rw [h]
  exact leDecode_getByte _ (by omega)

/-! ## Claims about the bitmap encoder -/

/-- C1: for `W > 0`, `H > 0` with `54 + H * (3W + 3) < 2^31`, the bytes written by
`saveImage` for a bitmap constructed with `(W, H)` number exactly
`54 + H * 4 * ⌈3W/4⌉`: the 14 header bytes, the 40 DIB bytes, and a pixel section
of `H * 4 * ⌈3W/4⌉` bytes; a 1x1 image has a pixel section of exactly 4 bytes. -/
theorem saveImage_length (dpi : Int) (W H : Nat) (mem : Nat → pixel)
    (hW : 0 < W) (hH : 0 < H) (hfit : 54 + H * (3 * W + 3) < 2 ^ 31) :
    (saveImage (bitMap.new dpi W H mem)).length = 54 + H * 4 * ⌈(3 * (W : ℚ)) / 4⌉₊
    ∧ (bitMap.new dpi W H mem).header.length = 14
    ∧ (bitMap.new dpi W H mem).DIB.length = 40
    ∧ saveImage (bitMap.new dpi W H mem)
        = (bitMap.new dpi W H mem).header ++ (bitMap.new dpi W H mem).DIB
            ++ (saveImage (bitMap.new dpi W H mem)).drop 54
    ∧ ((saveImage (bitMap.new dpi W H mem)).drop 54).length = H * 4 * ⌈(3 * (W : ℚ)) / 4⌉₊
    ∧ (W = 1 → H = 1 → ((saveImage (bitMap.new dpi W H mem)).drop 54).length = 4) := by
  have hlen := length_saveImage_new dpi W H mem
  have hdrop : ((saveImage (bitMap.new dpi W H mem)).drop 54).length
      = H * (4 * ((3 * W + 3) / 4)) := by
    rw [List.length_drop, hlen]; omega
  have hsplit : (saveImage (bitMap.new dpi W H mem)).drop 54
      = saveRows (bitMap.new dpi W H mem) H := by
    have h54 : ((bitMap.new dpi W H mem).header ++ (bitMap.new dpi W H mem).DIB).length = 54 := by
      rw [List.length_append, length_new_header, length_new_DIB]
    unfold saveImage
    rw [new_height, Int.toNat_ofNat, ← h54, List.drop_left]
  rw [ceil_three_quarters]
  refine ⟨by rw [hlen]; ring, rfl, rfl, ?_, by rw [hdrop]; ring, ?_⟩
  · rw [hsplit]; unfold saveImage; rw [new_height, Int.toNat_ofNat]
  · intro h1 h2; subst h1; subst h2; rw [hdrop]

theorem saveImage_length_witness :
    (saveImage (bitMap.new 72 ((1 : Nat) : Int) ((1 : Nat) : Int) (fun _ => default))).length
      = 54 + 1 * 4 * ⌈(3 * ((1 : Nat) : ℚ)) / 4⌉₊
    ∧ ((saveImage (bitMap.new 72 ((1 : Nat) : Int) ((1 : Nat) : Int)
          (fun _ => default))).drop 54).length = 4 :=
  ⟨(saveImage_length 72 1 1 (fun _ => default) (by decide) (by decide) (by norm_num)).1,
   (saveImage_length 72 1 1 (fun _ => default) (by decide) (by decide)
      (by norm_num)).2.2.2.2.2 rfl rfl⟩

/-- C2: for `W > 0`, `H > 0` whose total `14 + 40 + H * (4 * ⌈3W/4⌉)` fits a signed
32-bit `int`, the bytes `header[2..5]` written by `makeHeader` little-endian-decode
to that total, which is the number of bytes `saveImage` writes. -/
theorem header_total_size (dpi : Int) (W H : Nat) (mem : Nat → pixel)
    (hW : 0 < W) (hH : 0 < H)
    (hfit : 14 + 40 + H * (4 * ⌈(3 * (W : ℚ)) / 4⌉₊) < 2 ^ 31) :
    leDecode (((bitMap.new dpi W H mem).header.drop 2).take 4)
      = 14 + 40 + H * (4 * ⌈(3 * (W : ℚ)) / 4⌉₊)
    ∧ leDecode (((bitMap.new dpi W H mem).header.drop 2).take 4)
      = (saveImage (bitMap.new dpi W H mem)).length := by
  rw [ceil_three_quarters] at hfit ⊢
  rw [new_header_size_field dpi W H mem hH (by omega), length_saveImage_new]
  exact ⟨rfl, rfl⟩

theorem header_total_size_witness :
    leDecode (((bitMap.new 72 ((450 : Nat) : Int) ((300 : Nat) : Int)
        (fun _ => default)).header.drop 2).take 4)
      = 14 + 40 + 300 * (4 * ⌈(3 * ((450 : Nat) : ℚ)) / 4⌉₊)
    ∧ leDecode (((bitMap.new 72 ((450 : Nat) : Int) ((300 : Nat) : Int)
        (fun _ => default)).header.drop 2).take 4)
      = (saveImage (bitMap.new 72 ((450 : Nat) : Int) ((300 : Nat) : Int)
          (fun _ => default))).length :=
  header_total_size 72 450 300 (fun _ => default) (by decide) (by decide)
    (by rw [ceil_three_quarters]; norm_num)

theorem idx_lt (W H r c : Nat) (hr : r < H) (hc : c < W) : r * W + c < W * H := by
  have h : (r + 1) * W ≤ H * W := Nat.mul_le_mul_right W hr
  have h2 : (r + 1) * W = r * W + W := by ring
  have h3 : H * W = W * H := Nat.mul_comm H W
  omega

theorem getD_map_range (mem : Nat → pixel) (N k : Nat) (h : k < N) :
    ((List.range N).map mem).getD k default = mem k := by
  simp [List.getD_eq_getElem?_getD, List.getElem?_map, List.getElem?_range h]

theorem saveCols_new (dpi : Int) (W H : Nat) (mem : Nat → pixel) (hfit : W * H < 2147483648)
    (r : Nat) (hr : r < H) (n : Nat) (hn : n ≤ W) :
    saveCols (bitMap.new dpi W H mem) (r : Int) n
      = (List.range n).flatMap fun c =>
          [(mem (r * W + c)).blue.val, (mem (r * W + c)).green.val, (mem (r * W + c)).red.val] := by
  induction n with
  | zero => rfl
  | succ n ih =>
    have b0 : r * W + n < W * H := idx_lt W H r n hr (by omega)
    have b1 : r * W < 2147483648 := by omega
    have b2 : r * W + n < 2147483648 := by omega
    have e1 : (r : Int) * (W : Int) = ((r * W : Nat) : Int) := by push_cast; ring
    have e2 : ((r * W : Nat) : Int) + (n : Int) = ((r * W + n : Nat) : Int) := by push_cast; ring
    have e3 : (W : Int) * (H : Int) = ((W * H : Nat) : Int) := by push_cast; ring
    rw [saveCols, ih (by omega), new_width, new_imageData, e1, wrap32_nat _ b1, e2,
      wrap32_nat _ b2, e3, wrap32_nat _ hfit, Int.toNat_ofNat, Int.toNat_ofNat,
      getD_map_range mem _ _ b0, List.range_succ, List.flatMap_append]
    simp [pixelBytes]

theorem saveRows_new (dpi : Int) (W H : Nat) (mem : Nat → pixel) (hfit : W * H < 2147483648)
    (n : Nat) (hn : n ≤ H) :
    saveRows (bitMap.new dpi W H mem) n
      = (List.range n).reverse.flatMap fun r =>
          ((List.range W).flatMap fun c =>
            [(mem (r * W + c)).blue.val, (mem (r * W + c)).green.val, (mem (r * W + c)).red.val])
          ++ List.replicate ((4 - (3 * W) % 4) % 4) 0 := by
  induction n with
  | zero => rfl
  | succ n ih =>
    rw [saveRows, ih (by omega), saveRow, new_width, Int.toNat_ofNat,
      saveCols_new dpi W H mem hfit n (by omega) W (Nat.le_refl W), paddingAmount_nat,
      Int.toNat_ofNat, List.range_succ, List.reverse_append]
    simp

theorem drop_saveImage_new (dpi : Int) (W H : Nat) (mem : Nat → pixel) :
    (saveImage (bitMap.new dpi W H mem)).drop 54 = saveRows (bitMap.new dpi W H mem) H := by
  have h54 : ((bitMap.new dpi W H mem).header ++ (bitMap.new dpi W H mem).DIB).length = 54 := by
    rw [List.length_append, length_new_header, length_new_DIB]
  unfold saveImage
  rw [new_height, Int.toNat_ofNat, ← h54, List.drop_left]

/-- C3: for `W > 0`, `H > 0` (a buffer of `W * H` pixels that an `int` can count)
and every buffer contents `mem`, the bytes `saveImage` writes after the 54
header/DIB bytes are, for each row `r` from `H - 1` down to `0` and each column
`c` from `0` to `W - 1`, the blue, green, red bytes of the stored pixel at index
`r * W + c`, followed by `(4 - (3W mod 4)) mod 4` zero bytes per row. -/
theorem saveImage_pixel_section (dpi : Int) (W H : Nat) (mem : Nat → pixel)
    (hW : 0 < W) (hH : 0 < H) (hfit : W * H < 2 ^ 31) :
    (∀ k, k < W * H → (bitMap.new dpi W H mem).imageData[k]? = some (mem k))
    ∧ (saveImage (bitMap.new dpi W H mem)).drop 54 = specPixelSection W H mem := by
  have e3 : (W : Int) * (H : Int) = ((W * H : Nat) : Int) := by push_cast; ring
  constructor
  · intro k hk
    rw [new_imageData, e3, wrap32_nat _ hfit, Int.toNat_ofNat]
    simp [List.getElem?_map, List.getElem?_range hk]
  · rw [drop_saveImage_new, saveRows_new dpi W H mem hfit H (Nat.le_refl H)]
    rfl

theorem saveImage_pixel_section_witness :
    (∀ k, k < 2 * 2 → (bitMap.new 72 ((2 : Nat) : Int) ((2 : Nat) : Int)
        (fun i => ⟨Fin.ofNat i, 7, 9⟩)).imageData[k]? = some ((fun i => ⟨Fin.ofNat i, 7, 9⟩) k))
    ∧ (saveImage (bitMap.new 72 ((2 : Nat) : Int) ((2 : Nat) : Int)
        (fun i => ⟨Fin.ofNat i, 7, 9⟩))).drop 54
      = specPixelSection 2 2 (fun i => ⟨Fin.ofNat i, 7, 9⟩) :=
  saveImage_pixel_section 72 2 2 (fun i => ⟨Fin.ofNat i, 7, 9⟩) (by decide) (by decide)
    (by norm_num)

/-- C4: for every `W` and `H`, the bytes `header[10..13]` written by `makeHeader`
are `[54, 0, 0, 0]`, the 4-byte little-endian encoding of the pixel-data offset
`14 + 40 = 54`. -/
theorem header_offset_field (dpi w h : Int) (mem : Nat → pixel) :
    ((bitMap.new dpi w h mem).header.drop 10).take 4 = [54, 0, 0, 0]
    ∧ leDecode (((bitMap.new dpi w h mem).header.drop 10).take 4) = 14 + 40
    ∧ ((14 + 40 : Nat) : Int) = headerSize + sizeDIB := by
  have h : ((bitMap.new dpi w h mem).header.drop 10).take 4
      = [getByte 54 0, getByte 54 2, getByte 54 2, getByte 54 3] := rfl
  have h0 : getByte 54 0 = 54 := by decide
  have h2 : getByte 54 2 = 0 := by decide
  have h3 : getByte 54 3 = 0 := by decide
  rw [h, h0, h2, h3]
  exact ⟨rfl, rfl, rfl⟩

/-- C7 (the code departs from the claim): on a 1x1 bitmap, whose pixel array
has the single index `0`, `setColor(1, color)` passes the bounds check
`pos > numPixels()` and stores to `imageData[1]`, one element past the array. -/
theorem setColor_at_numPixels (dpi : Int) (mem : Nat → pixel) (color : pixel) :
    numPixels (bitMap.new dpi 1 1 mem) = 1
    ∧ (bitMap.new dpi 1 1 mem).imageData.length = 1
    ∧ setColor (bitMap.new dpi 1 1 mem) 1 color = Except.error 1 :=
  ⟨rfl, rfl, rfl⟩

theorem setColor_past_end (dpi : Int) (W H : Nat) (mem : Nat → pixel) (color : pixel)
    (hfit : W * H < 2147483648) :
    setColor (bitMap.new dpi W H mem) ((W * H : Nat) : Int) color
      = Except.error ((W * H : Nat) : Int) := by
  have e : (W : Int) * (H : Int) = ((W * H : Nat) : Int) := by push_cast; ring
  have hn : numPixels (bitMap.new dpi W H mem) = ((W * H : Nat) : Int) := by
    unfold numPixels
    rw [new_width, new_height, e, wrap32_nat _ hfit]
  have hl : (bitMap.new dpi W H mem).imageData.length = W * H := by
    rw [new_imageData, e, wrap32_nat _ hfit, List.length_map, List.length_range,
      Int.toNat_ofNat]
  unfold setColor
  rw [hn, hl, if_neg (by omega), if_neg (by rw [Int.toNat_ofNat]; omega)]

/-- The part of the bounds check of `setColor` that works: an index below `0`
or above `W * H` leaves the bitmap unchanged. -/
theorem setColor_rejected (b : bitMap) (pos : Int) (color : pixel)
    (h : pos < 0 ∨ numPixels b < pos) : setColor b pos color = Except.ok b := by
  unfold setColor
  rw [if_pos h]

/-- C10: for `0 < W < 2^31` and `0 < H < 2^31`, `makeDIB` writes a 40-byte block:
bytes 0-3 decode (little-endian) to 40, bytes 4-7 to `W`, bytes 8-11 to `H`,
bytes 12-13 to 1, bytes 14-15 to 24, bytes 16-23 are zero, bytes 24-27 and 28-31
both hold the little-endian bytes of the resolution `dpiToPPM dpi`, and bytes
32-39 are zero. -/
theorem makeDIB_layout (dpi : Int) (W H : Nat) (mem : Nat → pixel)
    (hW : 0 < W) (hW2 : W < 2 ^ 31) (hH : 0 < H) (hH2 : H < 2 ^ 31) :
    (bitMap.new dpi W H mem).DIB.length = 40
    ∧ leDecode ((bitMap.new dpi W H mem).DIB.take 4) = 40
    ∧ leDecode (((bitMap.new dpi W H mem).DIB.drop 4).take 4) = W
    ∧ leDecode (((bitMap.new dpi W H mem).DIB.drop 8).take 4) = H
    ∧ leDecode (((bitMap.new dpi W H mem).DIB.drop 12).take 2) = 1
    ∧ leDecode (((bitMap.new dpi W H mem).DIB.drop 14).take 2) = 24
    ∧ ((bitMap.new dpi W H mem).DIB.drop 16).take 8 = [0, 0, 0, 0, 0, 0, 0, 0]
    ∧ ((bitMap.new dpi W H mem).DIB.drop 24).take 4
        = [getByte (dpiToPPM dpi) 0, getByte (dpiToPPM dpi) 1,
           getByte (dpiToPPM dpi) 2, getByte (dpiToPPM dpi) 3]
    ∧ ((bitMap.new dpi W H mem).DIB.drop 28).take 4
        = ((bitMap.new dpi W H mem).DIB.drop 24).take 4
    ∧ (∀ n : Nat, dpiToPPM dpi = (n : Int) → n < 2 ^ 31 →
        leDecode (((bitMap.new dpi W H mem).DIB.drop 24).take 4) = n
        ∧ leDecode (((bitMap.new dpi W H mem).DIB.drop 28).take 4) = n)
    ∧ (bitMap.new dpi W H mem).DIB.drop 32 = [0, 0, 0, 0, 0, 0, 0, 0] := by
  have h40 : leDecode ((bitMap.new dpi W H mem).DIB.take 4) = 40 := by
    show leDecode [getByte ((40 : Nat) : Int) 0, getByte ((40 : Nat) : Int) 1,
      getByte ((40 : Nat) : Int) 2, getByte ((40 : Nat) : Int) 3] = 40
    exact leDecode_getByte 40 (by norm_num)
  have hw : leDecode (((bitMap.new dpi W H mem).DIB.drop 4).take 4) = W := by
    show leDecode [getByte (W : Int) 0, getByte (W : Int) 1, getByte (W : Int) 2,
      getByte (W : Int) 3] = W
    exact leDecode_getByte W (by omega)
  have hh : leDecode (((bitMap.new dpi W H mem).DIB.drop 8).take 4) = H := by
    show leDecode [getByte (H : Int) 0, getByte (H : Int) 1, getByte (H : Int) 2,
      getByte (H : Int) 3] = H
    exact leDecode_getByte H (by omega)
  have h24 : leDecode (((bitMap.new dpi W H mem).DIB.drop 14).take 2) = 24 := by
    show leDecode [getByte ((24 : Nat) : Int) 0, getByte ((24 : Nat) : Int) 1] = 24
    rw [getByte_nat, getByte_nat]; rfl
  refine ⟨rfl, h40, hw, hh, rfl, h24, rfl, rfl, rfl, ?_, rfl⟩
  intro n hn hlt
  have hres : leDecode (((bitMap.new dpi W H mem).DIB.drop 24).take 4) = n := by
    show leDecode [getByte (dpiToPPM dpi) 0, getByte (dpiToPPM dpi) 1,
      getByte (dpiToPPM dpi) 2, getByte (dpiToPPM dpi) 3] = n
    rw [hn]
    exact leDecode_getByte n (by omega)
  exact ⟨hres, hres⟩

theorem makeDIB_layout_witness :
    leDecode (((bitMap.new 72 ((450 : Nat) : Int) ((300 : Nat) : Int)
        (fun _ => default)).DIB.drop 4).take 4) = 450
    ∧ leDecode (((bitMap.new 72 ((450 : Nat) : Int) ((300 : Nat) : Int)
        (fun _ => default)).DIB.drop 8).take 4) = 300
    ∧ leDecode (((bitMap.new 72 ((450 : Nat) : Int) ((300 : Nat) : Int)
        (fun _ => default)).DIB.drop 24).take 4) = 2834 :=
  ⟨(makeDIB_layout 72 450 300 (fun _ => default) (by decide) (by norm_num) (by decide)
      (by norm_num)).2.2.1,
   (makeDIB_layout 72 450 300 (fun _ => default) (by decide) (by norm_num) (by decide)
      (by norm_num)).2.2.2.1,
   ((makeDIB_layout 72 450 300 (fun _ => default) (by decide) (by norm_num) (by decide)
      (by norm_num)).2.2.2.2.2.2.2.2.2.1 2834 (by decide) (by norm_num)).1⟩

/-! ## Claims about the row partition -/

theorem generateMandelbrot_nat (H K : Nat) (hK : 1 ≤ K) :
    generateMandelbrot (K : Int) (H : Int)
      = some ((List.range K).map fun i =>
          (((i * (H / K) : Nat) : Int),
           ((if i = K - 1 then H else (i + 1) * (H / K) : Nat) : Int))) := by
  unfold generateMandelbrot
  rw [if_neg (by omega)]
  simp only [Int.toNat_ofNat, ← Int.ofNat_tdiv, Option.some.injEq]
  apply List.map_congr_left
  intro i _
  by_cases h : i = K - 1
  · have h2 : (i : Int) = (K : Int) - 1 := by omega
    simp only [h2, if_true]
    rw [if_pos h]
    congr 1
    rw [← h2]
    push_cast
    rfl
  · have h2 : ¬ (i : Int) = (K : Int) - 1 := by omega
    simp only [h, h2, if_false]
    push_cast
    congr 1
    ring

theorem getD_map_range_pair (f : Nat → Int × Int) (K i : Nat) (h : i < K) :
    ((List.range K).map f).getD i (0, 0) = f i := by
  simp [List.getD_eq_getElem?_getD, List.getElem?_map, List.getElem?_range h]

theorem rows_disjoint (q H K i j : Nat) (hi : i < j) (hj : j < K) :
    (if i = K - 1 then H else (i + 1) * q) ≤ j * q := by
  rw [if_neg (by omega)]
  exact Nat.mul_le_mul_right q hi

theorem rows_cover (H K y : Nat) (hK : 1 ≤ K) (hy : y < H) :
    ∃ i, i < K ∧ i * (H / K) ≤ y ∧ y < (if i = K - 1 then H else (i + 1) * (H / K)) := by
  by_cases hlt : y / (H / K) < K - 1
  · by_cases hq : H / K = 0
    · refine ⟨K - 1, by omega, ?_, ?_⟩
      · rw [hq]; omega
      · rw [if_pos rfl]; exact hy
    · refine ⟨y / (H / K), by omega, Nat.div_mul_le_self y (H / K), ?_⟩
      rw [if_neg (by omega)]
      have h := Nat.lt_succ_iff.mpr (Nat.le_refl (y / (H / K)))
      have h2 := (Nat.div_lt_iff_lt_mul (Nat.pos_of_ne_zero hq)).mp h
      exact h2
  · refine ⟨K - 1, by omega, ?_, ?_⟩
    · by_cases hq : H / K = 0
      · rw [hq]; omega
      · have h1 : K - 1 ≤ y / (H / K) := by omega
        exact (Nat.le_div_iff_mul_le (Nat.pos_of_ne_zero hq)).mp h1
    · rw [if_pos rfl]; exact hy

/-- C5: for `H > 0` and `K ≥ 1` workers, `generateMandelbrot` hands out `K` row
ranges `[startY_i, endY_i)` with `startY_0 = 0`, `endY_i = startY_(i+1)` for
`i < K - 1` and `endY_(K-1) = H`; every range but the last has `⌊H / K⌋` rows and
the last has `H - (K - 1) * ⌊H / K⌋`; each row of `[0, H)` lies in exactly one
range and every row of a range lies in `[0, H)`. -/
theorem generateMandelbrot_partition (H K : Nat) (hH : 0 < H) (hK : 1 ≤ K) :
    ∃ rs : List (Int × Int), generateMandelbrot (K : Int) (H : Int) = some rs
      ∧ rs.length = K
      ∧ (rs.getD 0 (0, 0)).1 = 0
      ∧ (∀ i, i + 1 < K → (rs.getD i (0, 0)).2 = (rs.getD (i + 1) (0, 0)).1)
      ∧ (rs.getD (K - 1) (0, 0)).2 = (H : Int)
      ∧ (∀ i, i + 1 < K → (rs.getD i (0, 0)).2 - (rs.getD i (0, 0)).1 = ((H / K : Nat) : Int))
      ∧ (rs.getD (K - 1) (0, 0)).2 - (rs.getD (K - 1) (0, 0)).1
          = ((H - (K - 1) * (H / K) : Nat) : Int)
      ∧ (∀ y : Int, 0 ≤ y → y < (H : Int) →
          ∃! i, i < K ∧ (rs.getD i (0, 0)).1 ≤ y ∧ y < (rs.getD i (0, 0)).2)
      ∧ (∀ i (y : Int), i < K → (rs.getD i (0, 0)).1 ≤ y → y < (rs.getD i (0, 0)).2 →
          0 ≤ y ∧ y < (H : Int)) := by
  have hq : K * (H / K) ≤ H := Nat.mul_div_le H K
  have hlast : (K - 1) * (H / K) ≤ H :=
    Nat.le_trans (Nat.mul_le_mul_right _ (Nat.sub_le K 1)) hq
  have hget1 : ∀ i, i < K →
      (((List.range K).map fun i =>
          (((i * (H / K) : Nat) : Int),
           ((if i = K - 1 then H else (i + 1) * (H / K) : Nat) : Int))).getD i (0, 0)).1
        = ((i * (H / K) : Nat) : Int) :=
    fun i hi => by rw [getD_map_range_pair _ K i hi]
  have hget2 : ∀ i, i < K →
      (((List.range K).map fun i =>
          (((i * (H / K) : Nat) : Int),
           ((if i = K - 1 then H else (i + 1) * (H / K) : Nat) : Int))).getD i (0, 0)).2
        = ((if i = K - 1 then H else (i + 1) * (H / K) : Nat) : Int) :=
    fun i hi => by rw [getD_map_range_pair _ K i hi]
  have hend : ∀ i, i < K → (if i = K - 1 then H else (i + 1) * (H / K)) ≤ H := by
    intro i hi
    split
    · exact Nat.le_refl H
    · exact Nat.le_trans (Nat.mul_le_mul_right _ (by omega)) hq
  refine ⟨_, generateMandelbrot_nat H K hK, by simp, ?_, ?_, ?_, ?_, ?_, ?_, ?_⟩
  · rw [hget1 0 (by omega)]; simp
  · intro i hi
    rw [hget2 i (by omega), hget1 (i + 1) (by omega), if_neg (by omega)]
  · rw [hget2 (K - 1) (by omega), if_pos rfl]
  · intro i hi
    rw [hget2 i (by omega), hget1 i (by omega), if_neg (by omega)]
    have h : (i + 1) * (H / K) = i * (H / K) + H / K := by ring
    omega
  · rw [hget2 (K - 1) (by omega), hget1 (K - 1) (by omega), if_pos rfl]
    omega
  · intro y hy0 hyH
    obtain ⟨n, rfl⟩ := Int.eq_ofNat_of_zero_le hy0
    have hn : n < H := by omega
    obtain ⟨i, hiK, hlo, hhi⟩ := rows_cover H K n hK hn
    refine ⟨i, ⟨hiK, ?_, ?_⟩, ?_⟩
    · rw [hget1 i hiK]; exact_mod_cast hlo
    · rw [hget2 i hiK]; exact_mod_cast hhi
    · rintro j ⟨hjK, hjlo, hjhi⟩
      rw [hget1 j hjK] at hjlo
      rw [hget2 j hjK] at hjhi
      have hjlo2 : j * (H / K) ≤ n := by exact_mod_cast hjlo
      have hjhi2 : n < (if j = K - 1 then H else (j + 1) * (H / K)) := by exact_mod_cast hjhi
      rcases Nat.lt_trichotomy j i with h | h | h
      · have := rows_disjoint (H / K) H K j i h hiK
        omega
      · exact h
      · have := rows_disjoint (H / K) H K i j h hjK
        omega
  · intro i y hiK hlo hhi
    rw [hget1 i hiK] at hlo
    rw [hget2 i hiK] at hhi
    have h1 := hend i hiK
    constructor
    · have : (0 : Int) ≤ ((i * (H / K) : Nat) : Int) := Int.ofNat_nonneg _
      omega
    · have : (((if i = K - 1 then H else (i + 1) * (H / K)) : Nat) : Int) ≤ (H : Int) := by
        exact_mod_cast h1
      omega

theorem generateMandelbrot_partition_witness :
    ∃ rs : List (Int × Int), generateMandelbrot ((4 : Nat) : Int) ((10 : Nat) : Int) = some rs
      ∧ rs.length = 4
      ∧ (rs.getD 0 (0, 0)).1 = 0
      ∧ (∀ i, i + 1 < 4 → (rs.getD i (0, 0)).2 = (rs.getD (i + 1) (0, 0)).1)
      ∧ (rs.getD (4 - 1) (0, 0)).2 = ((10 : Nat) : Int)
      ∧ (∀ i, i + 1 < 4 → (rs.getD i (0, 0)).2 - (rs.getD i (0, 0)).1 = ((10 / 4 : Nat) : Int))
      ∧ (rs.getD (4 - 1) (0, 0)).2 - (rs.getD (4 - 1) (0, 0)).1
          = ((10 - (4 - 1) * (10 / 4) : Nat) : Int)
      ∧ (∀ y : Int, 0 ≤ y → y < ((10 : Nat) : Int) →
          ∃! i, i < 4 ∧ (rs.getD i (0, 0)).1 ≤ y ∧ y < (rs.getD i (0, 0)).2)
      ∧ (∀ i (y : Int), i < 4 → (rs.getD i (0, 0)).1 ≤ y → y < (rs.getD i (0, 0)).2 →
          0 ≤ y ∧ y < ((10 : Nat) : Int)) :=
  generateMandelbrot_partition 10 4 (by decide) (by decide)

/-- C6 (the code departs from the claim): when `hardware_concurrency()` reports
`0`, `generateMandelbrot` evaluates `height / thread_count` with a zero divisor
and assigns no row range; nothing in it falls back to one worker. -/
theorem generateMandelbrot_zero_workers (H : Int) : generateMandelbrot 0 H = none := rfl

/-! ## Claims about the escape-time loop -/

section EscapeLemmas

variable {K : Type} [LinearOrderedField K]

theorem mandelbrotLoop_no_escape (c : K × K) (N : Int) (fuel : Nat) (i : Int) (z : K × K)
    (h : ∀ j, j < fuel → absGt4 ((fun w => cadd (cmul w w) c)^[j + 1] z) = false) :
    mandelbrotLoop c N fuel i z = N := by
  induction fuel generalizing i z with
  | zero => rfl
  | succ fuel ih =>
    unfold mandelbrotLoop
    split
    · have h0 := h 0 (Nat.succ_pos fuel)
      simp only [Function.iterate_succ, Function.iterate_zero, Function.comp_apply, id_eq] at h0
      rw [h0]
      simp only [Bool.false_eq_true, if_false]
      apply ih
      intro j hj
      have hj' := h (j + 1) (Nat.succ_lt_succ hj)
      rw [Function.iterate_succ_apply] at hj'
      exact hj'
    · rfl

theorem mandelbrotLoop_escape (c : K × K) (N : Int) (fuel : Nat) (i : Int) (z : K × K) (m : Nat)
    (hm : m < fuel) (hN : i + (m : Int) < N)
    (hesc : absGt4 ((fun w => cadd (cmul w w) c)^[m + 1] z) = true)
    (hmin : ∀ j, j < m → absGt4 ((fun w => cadd (cmul w w) c)^[j + 1] z) = false) :
    mandelbrotLoop c N fuel i z = i + (m : Int) := by
  induction fuel generalizing i z m with
  | zero => exact absurd hm (Nat.not_lt_zero m)
  | succ fuel ih =>
    unfold mandelbrotLoop
    rw [if_pos (by omega)]
    cases m with
    | zero =>
      simp only [Function.iterate_succ, Function.iterate_zero, Function.comp_apply, id_eq,
        Nat.zero_add] at hesc
      rw [hesc]
      simp
    | succ m =>
      have h0 := hmin 0 (Nat.succ_pos m)
      simp only [Function.iterate_succ, Function.iterate_zero, Function.comp_apply, id_eq] at h0
      rw [h0]
      simp only [Bool.false_eq_true, if_false]
      rw [ih (i + 1) _ m (by omega) (by push_cast at hN; omega)]
      · push_cast; ring
      · rw [Function.iterate_succ_apply] at hesc
        exact hesc
      · intro j hj
        have hj' := hmin (j + 1) (Nat.succ_lt_succ hj)
        rw [Function.iterate_succ_apply] at hj'
        exact hj'

end EscapeLemmas

theorem absGt4_iff_abs (z : ℝ × ℝ) :
    absGt4 z = true ↔ 4 < Complex.abs ⟨z.1, z.2⟩ := by
  unfold absGt4
  rw [decide_eq_true_iff, Complex.abs_apply, Complex.normSq_mk,
    Real.lt_sqrt (by norm_num)]
  norm_num

theorem iterate_toComplex (x y : ℝ) (n : Nat) :
    (⟨((fun w : ℝ × ℝ => cadd (cmul w w) (x, y))^[n] (0, 0)).1,
      ((fun w : ℝ × ℝ => cadd (cmul w w) (x, y))^[n] (0, 0)).2⟩ : ℂ)
      = (fun z : ℂ => z ^ 2 + ⟨x, y⟩)^[n] 0 := by
  induction n with
  | zero => rfl
  | succ n ih =>
    rw [Function.iterate_succ_apply', Function.iterate_succ_apply', ← ih]
    apply Complex.ext <;> simp [cadd, cmul, pow_two]

theorem absGt4_orbit (x y : ℝ) (n : Nat) :
    absGt4 ((fun w : ℝ × ℝ => cadd (cmul w w) (x, y))^[n] (0, 0)) = true
      ↔ 4 < Complex.abs ((fun z : ℂ => z ^ 2 + ⟨x, y⟩)^[n] 0) := by
  rw [absGt4_iff_abs, iterate_toComplex]

theorem mandelbrot_eq_of_no_escape (x y : ℝ) (N : Int)
    (h : ∀ i : Nat, 1 ≤ i → (i : Int) < N →
      ¬ 4 < Complex.abs ((fun z : ℂ => z ^ 2 + ⟨x, y⟩)^[i] 0)) :
    mandelbrot x y N = N := by
  unfold mandelbrot
  apply mandelbrotLoop_no_escape
  intro j hj
  have hj2 : ((j + 1 : Nat) : Int) < N := by omega
  have h1 := h (j + 1) (by omega) hj2
  rw [← absGt4_orbit] at h1
  simpa using h1

theorem mandelbrot_eq_of_first_escape (x y : ℝ) (N : Int) (i : Nat) (h1 : 1 ≤ i)
    (hi : (i : Int) < N)
    (hesc : 4 < Complex.abs ((fun z : ℂ => z ^ 2 + ⟨x, y⟩)^[i] 0))
    (hmin : ∀ j : Nat, 1 ≤ j → j < i →
      ¬ 4 < Complex.abs ((fun z : ℂ => z ^ 2 + ⟨x, y⟩)^[j] 0)) :
    mandelbrot x y N = (i : Int) := by
  unfold mandelbrot
  obtain ⟨m, rfl⟩ : ∃ m, i = m + 1 := ⟨i - 1, by omega⟩
  rw [mandelbrotLoop_escape (x, y) N _ 1 (0, 0) m (by omega) (by omega)]
  · push_cast; ring
  · rw [absGt4_orbit]; exact hesc
  · intro j hj
    have h2 := hmin (j + 1) (by omega) (by omega)
    rw [← absGt4_orbit] at h2
    simpa using h2

theorem orbit_three_one :
    (fun w : ℝ × ℝ => cadd (cmul w w) (3, 0))^[1] (0, 0) = (3, 0) := by
  simp [cadd, cmul]

theorem orbit_three_two :
    (fun w : ℝ × ℝ => cadd (cmul w w) (3, 0))^[2] (0, 0) = (12, 0) := by
  simp [cadd, cmul]
  norm_num

theorem abs_orbit_three_one : Complex.abs ((fun z : ℂ => z ^ 2 + ⟨3, 0⟩)^[1] 0) = 3 := by
  rw [← iterate_toComplex, orbit_three_one, Complex.abs_apply, Complex.normSq_mk]
  rw [show (3 : ℝ) * 3 + 0 * 0 = 3 ^ 2 by norm_num, Real.sqrt_sq (by norm_num)]

theorem abs_orbit_three_two : Complex.abs ((fun z : ℂ => z ^ 2 + ⟨3, 0⟩)^[2] 0) = 12 := by
  rw [← iterate_toComplex, orbit_three_two, Complex.abs_apply, Complex.normSq_mk]
  rw [show (12 : ℝ) * 12 + 0 * 0 = 12 ^ 2 by norm_num, Real.sqrt_sq (by norm_num)]

theorem not_escape_three_below_two (j : Nat) (h1 : 1 ≤ j) (h2 : j < 2) :
    ¬ 4 < Complex.abs ((fun z : ℂ => z ^ 2 + ⟨3, 0⟩)^[j] 0) := by
  have hj : j = 1 := by omega
  subst hj
  rw [abs_orbit_three_one]
  norm_num

/-- C8 (the claim as written fails): at `c = (3, 0)` and `N = 100` the index `1`
is the smallest index with `|z_1|² = 9 > 4`, yet `mandelbrot(3, 0, 100)` is not `1`:
the code compares `std::abs(current)`, the modulus itself, with `4`, and
returns `2`. -/
theorem mandelbrot_squared_threshold_fails :
    ¬ (∀ i : Nat, 1 ≤ i → (i : Int) < 100 →
        4 < Complex.abs ((fun z : ℂ => z ^ 2 + ⟨3, 0⟩)^[i] 0) ^ 2 →
        (∀ j : Nat, 1 ≤ j → j < i →
          ¬ 4 < Complex.abs ((fun z : ℂ => z ^ 2 + ⟨3, 0⟩)^[j] 0) ^ 2) →
        mandelbrot (3 : ℝ) 0 100 = (i : Int)) := by
  intro h
  have h1 : mandelbrot (3 : ℝ) 0 100 = ((1 : Nat) : Int) :=
    h 1 (Nat.le_refl 1) (by norm_num) (by rw [abs_orbit_three_one]; norm_num)
      (fun j hj1 hj2 => absurd hj1 (by omega))
  have h2 : mandelbrot (3 : ℝ) 0 100 = ((2 : Nat) : Int) :=
    mandelbrot_eq_of_first_escape 3 0 100 2 (by norm_num) (by norm_num)
      (by rw [abs_orbit_three_two]; norm_num) not_escape_three_below_two
  rw [h1] at h2
  exact absurd h2 (by decide)

/-- C8 (amended): in exact real arithmetic, for every point `c = (x, y)` and
every bound `N > 0`, with `z_0 = 0`, `z_(n+1) = z_n² + c`, `mandelbrot(x, y, N)`
returns the smallest index `i` with `1 ≤ i < N` and `|z_i| > 4` (that is
`|z_i|² > 16`), and returns `N` if there is no such index. -/
theorem mandelbrot_first_escape (x y : ℝ) (N : Int) (hN : 0 < N) :
    ((∀ i : Nat, 1 ≤ i → (i : Int) < N →
        ¬ 4 < Complex.abs ((fun z : ℂ => z ^ 2 + ⟨x, y⟩)^[i] 0)) →
      mandelbrot x y N = N)
    ∧ (∀ i : Nat, 1 ≤ i → (i : Int) < N →
        4 < Complex.abs ((fun z : ℂ => z ^ 2 + ⟨x, y⟩)^[i] 0) →
        (∀ j : Nat, 1 ≤ j → j < i →
          ¬ 4 < Complex.abs ((fun z : ℂ => z ^ 2 + ⟨x, y⟩)^[j] 0)) →
        mandelbrot x y N = (i : Int)) :=
  ⟨mandelbrot_eq_of_no_escape x y N, fun i => mandelbrot_eq_of_first_escape x y N i⟩

theorem mandelbrot_first_escape_witness : mandelbrot (3 : ℝ) 0 100 = ((2 : Nat) : Int) :=
  (mandelbrot_first_escape 3 0 100 (by norm_num)).2 2 (by norm_num) (by norm_num)
    (by rw [abs_orbit_three_two]; norm_num) not_escape_three_below_two

/-! ## Claims about the colour mapper -/

theorem floor_255_sqrt (i c : Nat) (h1 : 100 * c ^ 2 ≤ 65025 * i)
    (h2 : 65025 * i < 100 * (c + 1) ^ 2) :
    ⌊255 * Real.sqrt ((i : ℝ) / 100)⌋₊ = c := by
  have e : 255 * Real.sqrt ((i : ℝ) / 100) = Real.sqrt (65025 * ((i : ℝ) / 100)) := by
    rw [Real.sqrt_mul (by norm_num)]
    congr 1
    rw [show (65025 : ℝ) = 255 ^ 2 by norm_num, Real.sqrt_sq (by norm_num)]
  have h1r : (100 : ℝ) * (c : ℝ) ^ 2 ≤ 65025 * (i : ℝ) := by exact_mod_cast h1
  have h2r : (65025 : ℝ) * (i : ℝ) < 100 * ((c : ℝ) + 1) ^ 2 := by exact_mod_cast h2
  rw [e, Nat.floor_eq_iff (Real.sqrt_nonneg _)]
  constructor
  · apply Real.le_sqrt_of_sq_le
    linarith
  · rw [Real.sqrt_lt' (by positivity)]
    linarith

set_option maxRecDepth 100000 in
theorem grayOk_all : ∀ i : Nat, i < 100 → grayOk i = true := by decide

/-- C9: for every iteration count `0 ≤ i ≤ 100` (`MAX_ITERATIONS = 100`),
`getPixelColor 100` is the interior colour `(41, 24, 82)`, and for `i < 100`
`getPixelColor i` is a grey pixel whose three channels all equal
`⌊255 * √(i / 100)⌋`, a value in `[0, 255]`. -/
theorem getPixelColor_spec (i : Nat) (hi : i ≤ 100) :
    (i = 100 → getPixelColor (i : Int) = some ⟨41, 24, 82⟩)
    ∧ (i < 100 → ∃ p : pixel, getPixelColor (i : Int) = some p
        ∧ p.red.val = ⌊255 * Real.sqrt ((i : ℝ) / 100)⌋₊
        ∧ p.green.val = ⌊255 * Real.sqrt ((i : ℝ) / 100)⌋₊
        ∧ p.blue.val = ⌊255 * Real.sqrt ((i : ℝ) / 100)⌋₊
        ∧ ⌊255 * Real.sqrt ((i : ℝ) / 100)⌋₊ ≤ 255) := by
  constructor
  · intro h; subst h; decide
  · intro hlt
    have hok := grayOk_all i hlt
    unfold grayOk at hok
    cases hp : getPixelColor (i : Int) with
    | none => rw [hp] at hok; exact absurd hok Bool.false_ne_true
    | some p =>
      rw [hp] at hok
      have hd := of_decide_eq_true hok
      obtain ⟨hg, hb, h255, h1, h2⟩ := hd
      have hf := floor_255_sqrt i p.red.val h1 h2
      exact ⟨p, rfl, by rw [hf], by rw [hf, hg], by rw [hf, hb], by rw [hf]; exact h255⟩

theorem getPixelColor_spec_witness :
    ∃ p : pixel, getPixelColor ((4 : Nat) : Int) = some p
        ∧ p.red.val = ⌊255 * Real.sqrt (((4 : Nat) : ℝ) / 100)⌋₊
        ∧ p.green.val = ⌊255 * Real.sqrt (((4 : Nat) : ℝ) / 100)⌋₊
        ∧ p.blue.val = ⌊255 * Real.sqrt (((4 : Nat) : ℝ) / 100)⌋₊
        ∧ ⌊255 * Real.sqrt (((4 : Nat) : ℝ) / 100)⌋₊ ≤ 255 :=
  (getPixelColor_spec 4 (by decide)).2 (by decide)

/-! ## Further claims about the bitmap encoder -/

/-- C12: for every width `W` with `3W` representable as a signed 32-bit `int`,
the row padding `p = (4 - (3W mod 4)) mod 4` computed in `saveImage` and
`makeHeader` satisfies `0 ≤ p ≤ 3` and `3W + p` is a multiple of 4; for `W ≥ 0`
the padded row length `3W + p` is `4 * ⌈3W/4⌉`. -/
theorem paddingAmount_bounds (W : Int) (h1 : -2 ^ 31 ≤ 3 * W) (h2 : 3 * W < 2 ^ 31) :
    0 ≤ paddingAmount W ∧ paddingAmount W ≤ 3
    ∧ (3 * W + paddingAmount W) % 4 = 0
    ∧ (0 ≤ W → 3 * W + paddingAmount W = 4 * (⌈(3 * (W.toNat : ℚ)) / 4⌉₊ : Int)) := by
  have hw : wrap32 (W * 3) = W * 3 := wrap32_eq_self (by omega) (by omega)
  have hp : paddingAmount W
      = if 0 ≤ 4 - (if 0 ≤ W * 3 then W * 3 % 4 else -(-(W * 3) % 4))
        then (4 - (if 0 ≤ W * 3 then W * 3 % 4 else -(-(W * 3) % 4))) % 4
        else -(-(4 - (if 0 ≤ W * 3 then W * 3 % 4 else -(-(W * 3) % 4))) % 4) := by
    unfold paddingAmount
    rw [hw, tmod_four, tmod_four]
  clear hw
  refine ⟨?_, ?_, ?_, ?_⟩
  · rw [hp]; split <;> split <;> omega
  · rw [hp]; split <;> split <;> omega
  · rw [hp]; split <;> split <;> omega
  · intro h0
    obtain ⟨n, rfl⟩ := Int.eq_ofNat_of_zero_le h0
    rw [paddingAmount_nat, Int.toNat_ofNat, ceil_three_quarters]
    have := rowSize_nat n
    omega

theorem paddingAmount_bounds_witness :
    0 ≤ paddingAmount (-1) ∧ paddingAmount (-1) ≤ 3
    ∧ (3 * (-1) + paddingAmount (-1)) % 4 = 0
    ∧ (0 ≤ (-1 : Int) → 3 * (-1) + paddingAmount (-1)
        = 4 * (⌈(3 * (((-1 : Int)).toNat : ℚ)) / 4⌉₊ : Int)) :=
  paddingAmount_bounds (-1) (by norm_num) (by norm_num)

theorem take_header_saveImage (b : bitMap) (h : b.header.length = 14) :
    (saveImage b).take 14 = b.header := by
  unfold saveImage
  rw [List.append_assoc, List.take_left' h]

/-- C17: for every `W` and `H`, the header written by `makeHeader` is 14 bytes
long, its first two bytes are `'B'` (0x42) and `'M'` (0x4D), its bytes 6-9 are
zero, and these 14 bytes are the first bytes `saveImage` writes. -/
theorem header_magic (dpi w h : Int) (mem : Nat → pixel) :
    (bitMap.new dpi w h mem).header.length = 14
    ∧ (bitMap.new dpi w h mem).header.take 2 = [0x42, 0x4D]
    ∧ (bitMap.new dpi w h mem).header.take 2 = ['B'.toNat, 'M'.toNat]
    ∧ ((bitMap.new dpi w h mem).header.drop 6).take 4 = [0, 0, 0, 0]
    ∧ (saveImage (bitMap.new dpi w h mem)).take 14 = (bitMap.new dpi w h mem).header
    ∧ (saveImage (bitMap.new dpi w h mem)).take 2 = [0x42, 0x4D] := by
  have ht := take_header_saveImage (bitMap.new dpi w h mem) rfl
  refine ⟨rfl, rfl, rfl, rfl, ht, ?_⟩
  have h2 : (saveImage (bitMap.new dpi w h mem)).take 2
      = ((saveImage (bitMap.new dpi w h mem)).take 14).take 2 := by
    rw [List.take_take]; rfl
  rw [h2, ht]
  rfl

/-- C18: for every value `0 ≤ v < 2^31` and byte index `k` in `{0, 1, 2, 3}`,
`getByte(v, k)` is `(v div 256^k) mod 256`, index 0 being the least significant
byte, and the four bytes give `v` back:
`getByte(v,0) + 256 getByte(v,1) + 256² getByte(v,2) + 256³ getByte(v,3) = v`. -/
theorem getByte_spec (v : Int) (h0 : 0 ≤ v) (h1 : v < 2 ^ 31) :
    (∀ k : Nat, k < 4 → (getByte v k : Int) = v / 256 ^ k % 256)
    ∧ (getByte v 0 : Int) + 256 * (getByte v 1 : Int) + 256 ^ 2 * (getByte v 2 : Int)
        + 256 ^ 3 * (getByte v 3 : Int) = v := by
  obtain ⟨n, rfl⟩ := Int.eq_ofNat_of_zero_le h0
  have hn : n < 4294967296 := by
    have : (n : Int) < 2147483648 := by simpa using h1
    omega
  constructor
  · intro k _
    rw [getByte_nat]
    push_cast
    rfl
  · have h := leDecode_getByte n hn
    simp only [leDecode] at h
    have h' : ((getByte (n : Int) 0 + 256 * (getByte (n : Int) 1 + 256 * (getByte (n : Int) 2
        + 256 * (getByte (n : Int) 3 + 256 * 0))) : Nat) : Int) = (n : Int) := by rw [h]
    push_cast at h'
    linarith

theorem getByte_spec_witness :
    (∀ k : Nat, k < 4 → (getByte 405654 k : Int) = 405654 / 256 ^ k % 256)
    ∧ (getByte 405654 0 : Int) + 256 * (getByte 405654 1 : Int)
        + 256 ^ 2 * (getByte 405654 2 : Int) + 256 ^ 3 * (getByte 405654 3 : Int) = 405654 :=
  getByte_spec 405654 (by norm_num) (by norm_num)

theorem new_header_offset_bytes (dpi w h : Int) (mem : Nat → pixel) :
    ((bitMap.new dpi w h mem).header.drop 10).take 4
      = [getByte (headerSize + sizeDIB) 0, getByte (headerSize + sizeDIB) 2,
         getByte (headerSize + sizeDIB) 2, getByte (headerSize + sizeDIB) 3] := rfl

theorem getByte_offset_one_eq_two :
    getByte (headerSize + sizeDIB) 1 = getByte (headerSize + sizeDIB) 2 := by decide

/-- C19 (the claim as written fails): for the 450x300 bitmap the bytes
`header[10..13]` do not differ from the 4-byte little-endian encoding
`getByte(54,0), getByte(54,1), getByte(54,2), getByte(54,3)` of the offset
`14 + 40`. -/
theorem offset_field_not_wrong :
    ¬ (((bitMap.new 72 450 300 (fun _ => default)).header.drop 10).take 4
        ≠ [getByte (14 + 40) 0, getByte (14 + 40) 1, getByte (14 + 40) 2, getByte (14 + 40) 3]) := by
  intro h
  apply h
  rw [new_header_offset_bytes]
  have e := getByte_offset_one_eq_two
  unfold headerSize sizeDIB at e ⊢
  rw [e]

/-- C19 (amended): `makeHeader` extracts the data-offset field with the byte
indices 0, 2, 2, 3 instead of 0, 1, 2, 3; bytes 1 and 2 of the offset `14 + 40`
are both zero, so `header[10..13]` is still the 4-byte little-endian encoding
of the pixel-data offset and decodes to 54. -/
theorem header_offset_indices (dpi w h : Int) (mem : Nat → pixel) :
    ((bitMap.new dpi w h mem).header.drop 10).take 4
      = [getByte (headerSize + sizeDIB) 0, getByte (headerSize + sizeDIB) 2,
         getByte (headerSize + sizeDIB) 2, getByte (headerSize + sizeDIB) 3]
    ∧ getByte (headerSize + sizeDIB) 1 = 0 ∧ getByte (headerSize + sizeDIB) 2 = 0
    ∧ ((bitMap.new dpi w h mem).header.drop 10).take 4
      = [getByte (headerSize + sizeDIB) 0, getByte (headerSize + sizeDIB) 1,
         getByte (headerSize + sizeDIB) 2, getByte (headerSize + sizeDIB) 3]
    ∧ (leDecode (((bitMap.new dpi w h mem).header.drop 10).take 4) : Int)
      = headerSize + sizeDIB := by
  have e := getByte_offset_one_eq_two
  have h1 : getByte (headerSize + sizeDIB) 1 = 0 := by decide
  have h2 : getByte (headerSize + sizeDIB) 2 = 0 := by decide
  have h0 : getByte (headerSize + sizeDIB) 0 = 54 := by decide
  have h3 : getByte (headerSize + sizeDIB) 3 = 0 := by decide
  refine ⟨new_header_offset_bytes dpi w h mem, h1, h2, ?_, ?_⟩
  · rw [new_header_offset_bytes, e]
  · rw [new_header_offset_bytes, h0, h2, h3]
    rfl

theorem saveImage_size_field (b : bitMap) (h : b.header.length = 14) :
    ((saveImage b).drop 2).take 4 = (b.header.drop 2).take 4 := by
  unfold saveImage
  rw [List.append_assoc, List.drop_append_of_le_length (by omega),
    List.take_append_of_le_length (by rw [List.length_drop]; omega)]

theorem saveImage_bytes_14_17 (b : bitMap) (h : b.header.length = 14) (hd : b.DIB.length = 40) :
    ((saveImage b).drop 14).take 4 = b.DIB.take 4 := by
  unfold saveImage
  rw [List.append_assoc, List.drop_left' h, List.take_append_of_le_length (by omega)]

theorem new_DIB_size_field (dpi w h : Int) (mem : Nat → pixel) :
    leDecode ((bitMap.new dpi w h mem).DIB.take 4) = 40 := by
  show leDecode [getByte ((40 : Nat) : Int) 0, getByte ((40 : Nat) : Int) 1,
    getByte ((40 : Nat) : Int) 2, getByte ((40 : Nat) : Int) 3] = 40
  exact leDecode_getByte 40 (by norm_num)

/-- C13 (the claim as written fails): in the 450x300 file the bytes at positions
14-17 do not decode to 405,654; they are the first field of the DIB. -/
theorem bytes_14_17_not_file_size :
    leDecode (((saveImage (bitMap.new 72 ((450 : Nat) : Int) ((300 : Nat) : Int)
        (fun _ => default))).drop 14).take 4) ≠ 405654 := by
  rw [saveImage_bytes_14_17 _ (length_new_header _ _ _ _) (length_new_DIB _ _ _ _),
    new_DIB_size_field]
  decide

/-- C13 (amended): with width 450 and height 300, the file that the constructor
and `saveImage` produce is 405,654 bytes long (`54 + 300 * 1352`), and the bytes at
positions 2-5 of that file little-endian-decode to 405,654 (the bytes at
positions 14-17 hold the DIB header size and decode to 40). -/
theorem scenario_450_300 (dpi : Int) (mem : Nat → pixel) :
    (saveImage (bitMap.new dpi ((450 : Nat) : Int) ((300 : Nat) : Int) mem)).length = 405654
    ∧ 405654 = 54 + 300 * 1352
    ∧ leDecode (((saveImage (bitMap.new dpi ((450 : Nat) : Int) ((300 : Nat) : Int) mem)).drop 2).take 4)
        = 405654
    ∧ leDecode (((saveImage (bitMap.new dpi ((450 : Nat) : Int) ((300 : Nat) : Int) mem)).drop 14).take 4)
        = 40 := by
  refine ⟨?_, by norm_num, ?_, ?_⟩
  · rw [length_saveImage_new]
  · rw [saveImage_size_field _ (length_new_header _ _ _ _),
      new_header_size_field dpi 450 300 mem (by decide) (by norm_num)]
  · rw [saveImage_bytes_14_17 _ (length_new_header _ _ _ _) (length_new_DIB _ _ _ _),
      new_DIB_size_field]

/-! ## Further claims about the escape-time loop and the colour mapper -/

section EscapePoints

variable {K : Type} [LinearOrderedField K]

theorem orbit_origin (n : Nat) :
    (fun w : K × K => cadd (cmul w w) (0, 0))^[n] (0, 0) = (0, 0) := by
  induction n with
  | zero => rfl
  | succ n ih =>
    rw [Function.iterate_succ_apply', ih]
    simp [cadd, cmul]

theorem absGt4_origin : absGt4 ((0, 0) : K × K) = false := by
  simp [absGt4]

theorem absGt4_first_far :
    absGt4 ((fun w : K × K => cadd (cmul w w) (10, 10))^[0 + 1] (0, 0)) = true := by
  simp only [Function.iterate_succ, Function.iterate_zero, Function.comp_apply, id_eq,
    absGt4, cadd, cmul, decide_eq_true_eq]
  norm_num

end EscapePoints

/-- C14: for every bound `N > 1`, `mandelbrot(0, 0, N)` returns `N`, in exact
arithmetic over any ordered field: the orbit of the origin stays at `0`. -/
theorem mandelbrot_origin {K : Type} [LinearOrderedField K] (N : Int) (hN : 1 < N) :
    mandelbrot (0 : K) 0 N = N := by
  unfold mandelbrot
  apply mandelbrotLoop_no_escape
  intro j _
  rw [orbit_origin]
  exact absGt4_origin

theorem mandelbrot_origin_witness : mandelbrot (0 : ℝ) 0 100 = 100 :=
  mandelbrot_origin 100 (by norm_num)

/-- C15: for every bound `N`, `mandelbrot(10, 10, N)` returns a count that is at
most 2, in exact arithmetic over any ordered field: it returns 1 when `N ≥ 1`
(for `N ≥ 2` because `|z_1| = |10 + 10i| > 4`) and `N` itself when `N ≤ 0`. -/
theorem mandelbrot_far {K : Type} [LinearOrderedField K] (N : Int) :
    mandelbrot (10 : K) 10 N ≤ 2
    ∧ (1 ≤ N → mandelbrot (10 : K) 10 N = 1)
    ∧ (N ≤ 0 → mandelbrot (10 : K) 10 N = N) := by
  have hsmall : N ≤ 1 → mandelbrot (10 : K) 10 N = N := by
    intro h
    unfold mandelbrot
    have hf : (N - 1).toNat = 0 := by omega
    rw [hf]
    rfl
  have hbig : 2 ≤ N → mandelbrot (10 : K) 10 N = 1 := by
    intro h
    unfold mandelbrot
    rw [mandelbrotLoop_escape (10, 10) N _ 1 (0, 0) 0 (by omega) (by omega) absGt4_first_far
      (fun j hj => absurd hj (Nat.not_lt_zero j))]
    rfl
  refine ⟨?_, ?_, ?_⟩
  · by_cases h : N ≤ 1
    · rw [hsmall h]; omega
    · rw [hbig (by omega)]; decide
  · intro h
    by_cases h1 : N ≤ 1
    · rw [hsmall h1]; omega
    · exact hbig (by omega)
  · intro h
    exact hsmall (by omega)

theorem floor_255_sqrt_mono (i j : Nat) (h : i ≤ j) :
    ⌊255 * Real.sqrt ((i : ℝ) / 100)⌋₊ ≤ ⌊255 * Real.sqrt ((j : ℝ) / 100)⌋₊ := by
  apply Nat.floor_mono
  apply mul_le_mul_of_nonneg_left _ (by norm_num)
  apply Real.sqrt_le_sqrt
  have : (i : ℝ) ≤ (j : ℝ) := by exact_mod_cast h
  have h2 : (i : ℝ) / 100 ≤ (j : ℝ) / 100 := by linarith
  exact h2

theorem gray_level (i : Nat) (hi : i < 100) :
    ∃ p : pixel, getPixelColor (i : Int) = some p
      ∧ p.red.val = ⌊255 * Real.sqrt ((i : ℝ) / 100)⌋₊
      ∧ p.green.val = p.red.val ∧ p.blue.val = p.red.val := by
  have hok := grayOk_all i hi
  unfold grayOk at hok
  cases hp : getPixelColor (i : Int) with
  | none => rw [hp] at hok; exact absurd hok Bool.false_ne_true
  | some p =>
    rw [hp] at hok
    obtain ⟨hg, hb, _, h1, h2⟩ := of_decide_eq_true hok
    exact ⟨p, rfl, (floor_255_sqrt i p.red.val h1 h2).symm, hg, hb⟩

/-- C16: `getPixelColor` is monotonic non-decreasing over `[1, N - 1]` with
`N = MAX_ITERATIONS = 100`: for `1 ≤ i ≤ j ≤ 99`, each channel of
`getPixelColor(i)` is at most the same channel of `getPixelColor(j)`. -/
theorem getPixelColor_mono (i j : Nat) (h1 : 1 ≤ i) (hij : i ≤ j) (hj : j ≤ 99) :
    ∃ p q : pixel, getPixelColor (i : Int) = some p ∧ getPixelColor (j : Int) = some q
      ∧ p.red ≤ q.red ∧ p.green ≤ q.green ∧ p.blue ≤ q.blue := by
  obtain ⟨p, hp, hpr, hpg, hpb⟩ := gray_level i (by omega)
  obtain ⟨q, hq, hqr, hqg, hqb⟩ := gray_level j (by omega)
  have hm := floor_255_sqrt_mono i j hij
  rw [← hpr, ← hqr] at hm
  refine ⟨p, q, hp, hq, ?_, ?_, ?_⟩
  · exact Fin.le_def.mpr hm
  · exact Fin.le_def.mpr (by rw [hpg, hqg]; exact hm)
  · exact Fin.le_def.mpr (by rw [hpb, hqb]; exact hm)

theorem getPixelColor_mono_witness :
    ∃ p q : pixel, getPixelColor ((4 : Nat) : Int) = some p
      ∧ getPixelColor ((99 : Nat) : Int) = some q
      ∧ p.red ≤ q.red ∧ p.green ≤ q.green ∧ p.blue ≤ q.blue :=
  getPixelColor_mono 4 99 (by decide) (by decide) (by decide)

/-! ## The resolution conversion -/

theorem roundFlt_man_nonneg (p : Nat) (num : Int) (den : Nat) (s : Int) (h : 0 ≤ num) :
    0 ≤ (roundFlt p num den s).man := by
  unfold roundFlt
  simp only
  rw [if_neg (by omega)]
  exact Int.ofNat_nonneg _

theorem toRat_nonneg (a : Flt) (h : 0 ≤ a.man) : 0 ≤ a.toRat := by
  unfold Flt.toRat
  have h1 : (0 : ℚ) ≤ (a.man : ℚ) := by exact_mod_cast h
  have h2 : (0 : ℚ) < (2 : ℚ) ^ a.exp := zpow_pos (by norm_num) _
  exact mul_nonneg h1 (le_of_lt h2)

theorem floatToInt_eq_floor (a : Flt) (h : 0 ≤ a.man) : floatToInt a = ⌊a.toRat⌋ := by
  unfold floatToInt Flt.toRat
  split
  · next hneg =>
    have hk : a.exp = -(((-a.exp).toNat : Nat) : Int) := by omega
    generalize (-a.exp).toNat = k at hk
    rw [hk, zpow_neg, zpow_natCast, ← div_eq_mul_inv]
    have h2 : ((2 : ℚ) ^ k) = (((2 ^ k : Nat) : Nat) : ℚ) := by push_cast; rfl
    rw [h2, Rat.floor_intCast_div_natCast, Int.tdiv_eq_ediv h (by positivity)]
    push_cast
    rfl
  · next hpos =>
    have hk : a.exp = (((a.exp).toNat : Nat) : Int) := by omega
    generalize (a.exp).toNat = k at hk
    rw [hk, zpow_natCast]
    have h2 : (a.man : ℚ) * (2 : ℚ) ^ k = ((a.man * 2 ^ k : Int) : ℚ) := by push_cast; rfl
    rw [h2, Int.floor_intCast]

theorem floor_ppm (n : Nat) : ⌊((n : Int) : ℚ) * 39.3701⌋ = ((393701 * n / 10000 : Nat) : Int) := by
  rw [Int.floor_eq_iff]
  have h1 : 393701 * n / 10000 * 10000 ≤ 393701 * n := Nat.div_mul_le_self _ _
  have h2 : 393701 * n < (393701 * n / 10000 + 1) * 10000 := by omega
  have h1q : (((393701 * n / 10000 : Nat) : ℚ)) * 10000 ≤ 393701 * (n : ℚ) := by exact_mod_cast h1
  have h2q : 393701 * (n : ℚ) < (((393701 * n / 10000 : Nat) : ℚ) + 1) * 10000 := by
    exact_mod_cast h2
  have e : (((n : Int) : ℚ)) * 39.3701 = 393701 * (n : ℚ) / 10000 := by push_cast; norm_num; ring
  rw [e]
  constructor
  · rw [le_div_iff₀ (by norm_num)]; exact_mod_cast h1q
  · rw [div_lt_iff₀ (by norm_num)]; exact_mod_cast h2q

set_option maxRecDepth 1000000 in
theorem ppmOk_0 : ∀ d : Nat, d < 301 → ppmOk d = true := by decide

set_option maxRecDepth 1000000 in
theorem ppmOk_1 : ∀ d : Nat, d < 301 → ppmOk (d + 301) = true := by decide

set_option maxRecDepth 1000000 in
theorem ppmOk_2 : ∀ d : Nat, d < 301 → ppmOk (d + 602) = true := by decide

set_option maxRecDepth 1000000 in
theorem ppmOk_3 : ∀ d : Nat, d < 301 → ppmOk (d + 903) = true := by decide

set_option maxRecDepth 1000000 in
theorem ppmOk_4 : ∀ d : Nat, d < 301 → ppmOk (d + 1204) = true := by decide

theorem ppmOk_all (d : Nat) (h : d < 1505) : ppmOk d = true := by
  by_cases h0 : d < 301
  · exact ppmOk_0 d h0
  by_cases h1 : d < 602
  · have := ppmOk_1 (d - 301) (by omega)
    rwa [Nat.sub_add_cancel (by omega)] at this
  by_cases h2 : d < 903
  · have := ppmOk_2 (d - 602) (by omega)
    rwa [Nat.sub_add_cancel (by omega)] at this
  by_cases h3 : d < 1204
  · have := ppmOk_3 (d - 903) (by omega)
    rwa [Nat.sub_add_cancel (by omega)] at this
  · have := ppmOk_4 (d - 1204) (by omega)
    rwa [Nat.sub_add_cancel (by omega)] at this

theorem dpiToPPM_72 : dpiToPPM 72 = 2834 := by decide

/-- C11 (the claim as written fails): for `dpi = 72`, `dpiToPPM` returns 2834,
while `72 * 39.3701 = 2834.6472` rounded to the nearest integer is 2835. -/
theorem dpiToPPM_not_round : dpiToPPM 72 ≠ round ((72 : ℚ) * 39.3701) := by
  have hr : round ((72 : ℚ) * 39.3701) = 2835 := by
    rw [round_eq, Int.floor_eq_iff]
    norm_num
  rw [hr, dpiToPPM_72]
  decide

theorem dpiToPPM_eq_cast (dpi : Int) : dpiToPPM dpi = floatToInt (dpiConvert dpi) := rfl

theorem dpiConvert_man_nonneg (dpi : Int) (hpos : 0 < dpi) : 0 ≤ (dpiConvert dpi).man := by
  unfold dpiConvert fmul32
  apply roundFlt_man_nonneg
  apply mul_nonneg
  · exact roundFlt_man_nonneg 24 dpi 1 0 (le_of_lt hpos)
  · apply roundFlt_man_nonneg
    exact roundFlt_man_nonneg 53 393701 10000 0 (by norm_num)

theorem dpiToPPM_eq_floor (dpi : Int) (hpos : 0 < dpi) :
    dpiToPPM dpi = ⌊(dpiConvert dpi).toRat⌋ := by
  rw [dpiToPPM_eq_cast]
  exact floatToInt_eq_floor _ (dpiConvert_man_nonneg dpi hpos)

theorem fitsInt_of_lt (dpi : Int) (hpos : 0 < dpi) (h : dpiToPPM dpi < 2 ^ 31) :
    fitsInt (dpiConvert dpi) := by
  have h0 := toRat_nonneg _ (dpiConvert_man_nonneg dpi hpos)
  constructor
  · have : (-(2 : ℚ) ^ 31 - 1) < 0 := by norm_num
    linarith
  · rw [dpiToPPM_eq_floor dpi hpos, Int.floor_lt] at h
    exact_mod_cast h

theorem fitsInt_small (dpi : Int) (hpos : 0 < dpi) (hle : dpi ≤ 1504) :
    fitsInt (dpiConvert dpi) := by
  apply fitsInt_of_lt dpi hpos
  obtain ⟨n, rfl⟩ := Int.eq_ofNat_of_zero_le (le_of_lt hpos)
  have hok := ppmOk_all n (by omega)
  unfold ppmOk at hok
  rw [of_decide_eq_true hok]
  have h1 : 393701 * n / 10000 ≤ 393701 * n := Nat.div_le_self _ _
  have h2 : ((393701 * n / 10000 : Nat) : Int) < 2147483648 := by omega
  simpa using h2

/-- C11 (amended): for every positive integer `dpi` for which the cast in
`dpiToPPM` is defined, that is whose single-precision product `convert` with
`39.3701` is below `2^31` (every `dpi` from 1 to 1504 is such), `dpiToPPM(dpi)`
returns `convert` truncated toward zero, that is `⌊convert⌋`, not rounded to the
nearest integer; for `1 ≤ dpi ≤ 1504` this is `⌊dpi * 39.3701⌋`; and this is the
value, below `2^31`, whose little-endian bytes are stored in both resolution
fields of the DIB. -/
theorem dpiToPPM_truncates (dpi : Int) (hpos : 0 < dpi) (hfit : fitsInt (dpiConvert dpi)) :
    dpiToPPM dpi = floatToInt (dpiConvert dpi)
    ∧ 0 ≤ (dpiConvert dpi).toRat
    ∧ dpiToPPM dpi = ⌊(dpiConvert dpi).toRat⌋
    ∧ 0 ≤ dpiToPPM dpi ∧ dpiToPPM dpi < 2 ^ 31
    ∧ (dpi ≤ 1504 → dpiToPPM dpi = ⌊(dpi : ℚ) * 39.3701⌋)
    ∧ (∀ (w h : Int) (mem : Nat → pixel),
        ((bitMap.new dpi w h mem).DIB.drop 24).take 4
          = [getByte (dpiToPPM dpi) 0, getByte (dpiToPPM dpi) 1,
             getByte (dpiToPPM dpi) 2, getByte (dpiToPPM dpi) 3]
        ∧ ((bitMap.new dpi w h mem).DIB.drop 28).take 4
          = ((bitMap.new dpi w h mem).DIB.drop 24).take 4
        ∧ (leDecode (((bitMap.new dpi w h mem).DIB.drop 24).take 4) : Int) = dpiToPPM dpi) := by
  have h0 := toRat_nonneg _ (dpiConvert_man_nonneg dpi hpos)
  have hfl := dpiToPPM_eq_floor dpi hpos
  have hnn : 0 ≤ dpiToPPM dpi := by
    rw [hfl]; exact Int.floor_nonneg.mpr h0
  have hlt : dpiToPPM dpi < 2 ^ 31 := by
    rw [hfl, Int.floor_lt]
    exact_mod_cast hfit.2
  refine ⟨rfl, h0, hfl, hnn, hlt, ?_, ?_⟩
  · intro hle
    obtain ⟨n, rfl⟩ := Int.eq_ofNat_of_zero_le (le_of_lt hpos)
    have hok := ppmOk_all n (by omega)
    unfold ppmOk at hok
    rw [of_decide_eq_true hok, floor_ppm]
  · intro w h mem
    refine ⟨rfl, rfl, ?_⟩
    obtain ⟨v, hv⟩ := Int.eq_ofNat_of_zero_le hnn
    have hv2 : v < 4294967296 := by
      have : (v : Int) < 2147483648 := by rw [← hv]; simpa using hlt
      omega
    show (leDecode [getByte (dpiToPPM dpi) 0, getByte (dpiToPPM dpi) 1,
      getByte (dpiToPPM dpi) 2, getByte (dpiToPPM dpi) 3] : Int) = dpiToPPM dpi
    rw [hv, leDecode_getByte v hv2]

theorem dpiToPPM_truncates_witness :
    fitsInt (dpiConvert 72) ∧ dpiToPPM 72 = ⌊((72 : Int) : ℚ) * 39.3701⌋ :=
  ⟨fitsInt_small 72 (by norm_num) (by norm_num),
   (dpiToPPM_truncates 72 (by norm_num)
      (fitsInt_small 72 (by norm_num) (by norm_num))).2.2.2.2.2.1 (by norm_num)⟩

/-! ## The stores of the workers -/

theorem sectionCols_indices (color : Int → Int → pixel) (r n : Nat)
    (hb : 450 * r + n ≤ 2147483648) :
    (sectionCols color (r : Int) n).map Prod.fst
      = (List.range' (450 * r) n).map fun (k : Nat) => (k : Int) := by
  induction n with
  | zero => rfl
  | succ n ih =>
    have b1 : r * 450 < 2147483648 := by omega
    have b2 : r * 450 + n < 2147483648 := by omega
    have e1 : (r : Int) * WIDTH = ((r * 450 : Nat) : Int) := by
      show (r : Int) * 450 = _
      push_cast; ring
    have e2 : ((r * 450 : Nat) : Int) + (n : Int) = ((r * 450 + n : Nat) : Int) := by
      push_cast; ring
    have e3 : r * 450 + n = 450 * r + 1 * n := by ring
    rw [sectionCols, List.map_append, ih (by omega), e1, wrap32_nat _ b1, e2, wrap32_nat _ b2,
      List.range'_concat, List.map_append, e3]
    rfl

theorem section_rows_indices (color : Int → Int → pixel) (a m : Nat)
    (hb : 450 * (a + m) ≤ 2147483648) :
    ((List.range m).flatMap fun (k : Nat) =>
        sectionCols color ((a : Int) + (k : Int)) 450).map Prod.fst
      = (List.range' (450 * a) (450 * m)).map fun (k : Nat) => (k : Int) := by
  induction m with
  | zero => rfl
  | succ m ih =>
    have e1 : (a : Int) + (m : Int) = ((a + m : Nat) : Int) := by push_cast; ring
    have e2 : 450 * a + 450 * m = 450 * (a + m) := by ring
    have e3 : 450 + 450 * m = 450 * (m + 1) := by ring
    rw [List.range_succ, List.flatMap_append, List.map_append, ih (by omega),
      List.flatMap_singleton, e1, sectionCols_indices color (a + m) 450 (by omega),
      ← List.map_append, ← e2, List.range'_append_1, e3]

theorem generateMandelbrotSection_indices (color : Int → Int → pixel) (a b : Nat)
    (hab : a ≤ b) (hb : 450 * b ≤ 2147483648) :
    (generateMandelbrotSection color (a : Int) (b : Int)).map Prod.fst
      = (List.range' (450 * a) (450 * (b - a))).map fun (k : Nat) => (k : Int) := by
  have e1 : ((b : Int) - (a : Int)).toNat = b - a := by omega
  have e2 : WIDTH.toNat = 450 := rfl
  unfold generateMandelbrotSection
  rw [e1, e2]
  exact section_rows_indices color a (b - a) (by rw [Nat.add_sub_cancel' hab]; exact hb)

theorem concat_ranges (bnd : Nat → Nat) (n : Nat) (hmono : ∀ i, i < n → bnd i ≤ bnd (i + 1)) :
    bnd 0 ≤ bnd n
    ∧ ((List.range n).flatMap fun i => List.range' (450 * bnd i) (450 * (bnd (i + 1) - bnd i)))
      = List.range' (450 * bnd 0) (450 * (bnd n - bnd 0)) := by
  induction n with
  | zero => simp
  | succ n ih =>
    obtain ⟨h0, heq⟩ := ih (fun i hi => hmono i (by omega))
    have hn := hmono n (by omega)
    refine ⟨Nat.le_trans h0 hn, ?_⟩
    have e1 : 450 * bnd 0 + 450 * (bnd n - bnd 0) = 450 * bnd n := by omega
    have e2 : 450 * (bnd (n + 1) - bnd n) + 450 * (bnd n - bnd 0)
        = 450 * (bnd (n + 1) - bnd 0) := by omega
    rw [List.range_succ, List.flatMap_append, heq, List.flatMap_singleton, ← e1,
      List.range'_append_1, e2]

theorem workerStores_nat (color : Int → Int → pixel) (H K : Nat) (hK : 1 ≤ K) :
    workerStores color (K : Int) (H : Int)
      = some ((List.range K).map fun i =>
          generateMandelbrotSection color ((i * (H / K) : Nat) : Int)
            ((if i = K - 1 then H else (i + 1) * (H / K) : Nat) : Int)) := by
  unfold workerStores
  rw [generateMandelbrot_nat H K hK, Option.map_some', List.map_map]
  rfl

theorem worker_indices (color : Int → Int → pixel) (H K : Nat) (hK : 1 ≤ K)
    (hfit : 450 * H ≤ 2147483648) :
    ((List.range K).map fun i =>
        (generateMandelbrotSection color ((i * (H / K) : Nat) : Int)
          ((if i = K - 1 then H else (i + 1) * (H / K) : Nat) : Int)).map Prod.fst).flatten
      = (List.range (450 * H)).map fun (k : Nat) => (k : Int) := by
  have hq : K * (H / K) ≤ H := Nat.mul_div_le H K
  have hmono : ∀ i, i < K →
      (fun j => if j = K then H else j * (H / K)) i
        ≤ (fun j => if j = K then H else j * (H / K)) (i + 1) := by
    intro i hi
    simp only
    rw [if_neg (by omega)]
    split
    · exact Nat.le_trans (Nat.mul_le_mul_right _ (by omega)) hq
    · exact Nat.mul_le_mul_right _ (by omega)
  have hcat := (concat_ranges (fun j => if j = K then H else j * (H / K)) K hmono).2
  beta_reduce at hcat
  have h0 : (if 0 = K then H else 0 * (H / K)) = 0 := by
    rw [if_neg (by omega), Nat.zero_mul]
  have hKK : (if K = K then H else K * (H / K)) = H := if_pos rfl
  rw [h0, hKK, Nat.mul_zero, Nat.sub_zero, ← List.range_eq_range'] at hcat
  rw [← hcat, List.flatMap_def, List.map_flatten, List.map_map]
  congr 1
  apply List.map_congr_left
  intro i hi
  have hiK : i < K := List.mem_range.mp hi
  have hle : i * (H / K) ≤ (if i = K - 1 then H else (i + 1) * (H / K)) := by
    split
    · exact Nat.le_trans (Nat.mul_le_mul_right _ (by omega)) hq
    · exact Nat.mul_le_mul_right _ (by omega)
  have hub : (if i = K - 1 then H else (i + 1) * (H / K)) ≤ H := by
    split
    · exact Nat.le_refl H
    · exact Nat.le_trans (Nat.mul_le_mul_right _ (by omega)) hq
  have e1 : (if i + 1 = K then H else (i + 1) * (H / K))
      = (if i = K - 1 then H else (i + 1) * (H / K)) := by
    by_cases h : i = K - 1
    · rw [if_pos h, if_pos (by omega)]
    · rw [if_neg h, if_neg (by omega)]
  have e0 : (if i = K then H else i * (H / K)) = i * (H / K) := if_neg (by omega)
  have hb : 450 * (if i = K - 1 then H else (i + 1) * (H / K)) ≤ 2147483648 := by omega
  simp only [Function.comp_apply]
  rw [e1, e0]
  exact generateMandelbrotSection_indices color _ _ hle hb

theorem count_cast_range (n : Nat) (idx : Int) :
    ((List.range n).map fun (k : Nat) => (k : Int)).count idx
      = if 0 ≤ idx ∧ idx < (n : Int) then 1 else 0 := by
  have hnd : ((List.range n).map fun (k : Nat) => (k : Int)).Nodup :=
    (List.nodup_range n).map (fun a b hab => Int.ofNat.inj hab)
  split
  · next h =>
    apply List.count_eq_one_of_mem hnd
    rw [List.mem_map]
    exact ⟨idx.toNat, List.mem_range.mpr (by omega), by omega⟩
  · next h =>
    apply List.count_eq_zero_of_not_mem
    rw [List.mem_map]
    rintro ⟨k, hk, rfl⟩
    have := List.mem_range.mp hk
    omega

/-- C20: for `H > 0` and `K ≥ 1` workers, on a buffer of width `WIDTH` and height
`H` (with `WIDTH * H` an `int`), the indices `y * WIDTH + x` stored to by the
`generateMandelbrotSection` workers that `generateMandelbrot` launches are,
worker after worker, exactly `0, 1, ..., WIDTH * H - 1`: every index of
`[0, WIDTH * H)` is stored to once by one worker (the numbers of stores to it,
summed over the workers, is 1) and no index outside that range is stored to. -/
theorem workers_cover_buffer (color : Int → Int → pixel) (H K : Nat)
    (hH : 0 < H) (hK : 1 ≤ K) (hfit : WIDTH * (H : Int) < 2 ^ 31) :
    ∃ ws : List (List (Int × pixel)), workerStores color (K : Int) (H : Int) = some ws
      ∧ ws.length = K
      ∧ ws.flatten.map Prod.fst = (List.range (450 * H)).map (fun (k : Nat) => (k : Int))
      ∧ (∀ idx : Int, 0 ≤ idx → idx < WIDTH * (H : Int) →
          (ws.map fun w => (w.map Prod.fst).count idx).sum = 1)
      ∧ (∀ idx : Int, idx < 0 ∨ WIDTH * (H : Int) ≤ idx →
          (ws.map fun w => (w.map Prod.fst).count idx).sum = 0) := by
  have hW : WIDTH = 450 := rfl
  rw [hW] at hfit ⊢
  have hfit2 : 450 * H ≤ 2147483648 := by
    have : (450 : Int) * (H : Int) < 2147483648 := by simpa using hfit
    omega
  have hidx := worker_indices color H K hK hfit2
  have hflat : ∀ ws : List (List (Int × pixel)),
      ws.flatten.map Prod.fst = (ws.map fun w => w.map Prod.fst).flatten := by
    intro ws; rw [List.map_flatten]
  have hsum : ∀ (ws : List (List (Int × pixel))) (idx : Int),
      (ws.map fun w => (w.map Prod.fst).count idx).sum
        = (ws.flatten.map Prod.fst).count idx := by
    intro ws idx
    rw [hflat, List.count_flatten, List.map_map]
    rfl
  refine ⟨_, workerStores_nat color H K hK, by simp, ?_, ?_, ?_⟩
  · rw [hflat, List.map_map]
    exact hidx
  · intro idx h0 h1
    rw [hsum, hflat, List.map_map]
    rw [show ((List.range K).map ((fun w : List (Int × pixel) => w.map Prod.fst) ∘ fun i =>
          generateMandelbrotSection color ((i * (H / K) : Nat) : Int)
            ((if i = K - 1 then H else (i + 1) * (H / K) : Nat) : Int))).flatten
        = (List.range (450 * H)).map (fun (k : Nat) => (k : Int)) from hidx]
    rw [count_cast_range, if_pos ⟨h0, by push_cast; exact h1⟩]
  · intro idx h
    rw [hsum, hflat, List.map_map]
    rw [show ((List.range K).map ((fun w : List (Int × pixel) => w.map Prod.fst) ∘ fun i =>
          generateMandelbrotSection color ((i * (H / K) : Nat) : Int)
            ((if i = K - 1 then H else (i + 1) * (H / K) : Nat) : Int))).flatten
        = (List.range (450 * H)).map (fun (k : Nat) => (k : Int)) from hidx]
    rw [count_cast_range, if_neg (by push_cast; omega)]

theorem workers_cover_buffer_witness :
    ∃ ws : List (List (Int × pixel)),
      workerStores (fun _ _ => default) ((4 : Nat) : Int) ((300 : Nat) : Int) = some ws
      ∧ ws.length = 4
      ∧ ws.flatten.map Prod.fst = (List.range (450 * 300)).map (fun (k : Nat) => (k : Int))
      ∧ (∀ idx : Int, 0 ≤ idx → idx < WIDTH * ((300 : Nat) : Int) →
          (ws.map fun w => (w.map Prod.fst).count idx).sum = 1)
      ∧ (∀ idx : Int, idx < 0 ∨ WIDTH * ((300 : Nat) : Int) ≤ idx →
          (ws.map fun w => (w.map Prod.fst).count idx).sum = 0) :=
  workers_cover_buffer (fun _ _ => default) 300 4 (by decide) (by decide) (by decide)

end MandelBrot
